import Mathlib

/-
Verification development for the concurrent LRU cache engine
(`Lv5_bdFlatLRU` built on `Lv3_LinkedFlatMap`, `SPSC_RingBufferUltraFast`
and `EpochManager` from `src/structures/LRUCache/LRUCache.cpp`).

The C++ classes are shallowly embedded as pure Lean functions over explicit
state records.  Machine integers are modelled as `Nat` with explicit
reduction modulo `2^32` (the per-slot generation counter is `uint32_t`)
and `2^64` (the global epoch counter is `uint64_t`).  Fallible or possibly
diverging code (the unbounded probe loops of `lookup` and `assign_slot`)
is modelled with a probe budget of `TableSize` steps: the probe sequence
is periodic with period `TableSize`, so a probe that finds neither an
Empty slot nor its key within `TableSize` steps loops forever in the C++;
the model returns `none` in exactly that case.

Sequential (single-threaded, quiescent) semantics are modelled: an atomic
load returns the current field value, and the reader-side retry of
`get_lockless` (wait on an odd generation, reload) reloads the same value.
-/

namespace LRUModel

/-- Reduction modulo 2^32, the wraparound of the `uint32_t` slot generation. -/
def u32 (n : Nat) : Nat := n % 4294967296

/-- Reduction modulo 2^64, the wraparound of the `uint64_t` global epoch. -/
def u64 (n : Nat) : Nat := n % 18446744073709551616

/-- The slot state enumeration `slot_state : uint8_t` of `Lv3_LinkedFlatMap`. -/
inductive SlotState where
  | Empty
  | Occupied
  | Deleted
deriving DecidableEq, Repr

/-- One table slot: the fields of `MetaEntry` (gen, state, key, next, prev)
together with the `DataEntry` value.  `next`/`prev` are `index_type` values
where the C++ sentinel `NullIdx` is modelled as `none`; the
`shared_ptr<ValueType>` value is modelled as `Option V` (`none` = null). -/
structure Slot (K V : Type) where
  gen : Nat
  state : SlotState
  key : K
  next : Option Nat
  prev : Option Nat
  value : Option V
deriving DecidableEq, Repr

instance (K V : Type) [Inhabited K] : Inhabited (Slot K V) :=
  ⟨⟨0, SlotState.Empty, default, none, none, none⟩⟩

/-- The state of one `Lv3_LinkedFlatMap`: the slot array (of length
`TableSize = 2 * Capacity`), the intrusive-list heads and the size counter. -/
structure MapState (K V : Type) where
  slots : List (Slot K V)
  head : Option Nat
  tail : Option Nat
  size : Nat
deriving DecidableEq, Repr

variable {K V : Type} [DecidableEq K] [DecidableEq V] [Inhabited K]

/-- Slot read (default-initialised slot for an index beyond the table,
which never occurs for the indices the operations produce). -/
def slotAt (m : MapState K V) (i : Nat) : Slot K V := m.slots.getD i default

def stateAt (m : MapState K V) (i : Nat) : SlotState := (slotAt m i).state

def keyAt (m : MapState K V) (i : Nat) : K := (slotAt m i).key

def genAt (m : MapState K V) (i : Nat) : Nat := (slotAt m i).gen

def valueAt (m : MapState K V) (i : Nat) : Option V := (slotAt m i).value

/-- Write one slot of the table. -/
def setSlot (m : MapState K V) (i : Nat) (s : Slot K V) : MapState K V :=
  { m with slots := m.slots.set i s }

/-- An initial map: `TableSize` default-initialised slots, null heads, size 0. -/
def initMap (TS : Nat) : MapState K V :=
  { slots := List.replicate TS default, head := none, tail := none, size := 0 }

/-- The hash bucket `std::hash<KeyType>{}(key) & Mask`; with `Mask =
TableSize - 1` and a power-of-two `TableSize` this is reduction mod `TS`. -/
def hashIdx (hK : K → Nat) (TS : Nat) (k : K) : Nat := hK k % TS

/-- `next_slot`: advance the probe cursor, `(idx + 1) & Mask`. -/
def nextSlot (TS i : Nat) : Nat := (i + 1) % TS

/-- Outcome of the writer-side probe walk of `lookup`: a miss carrying the
insertion target (first tombstone if one was seen, else the Empty slot that
terminated the probe), or a hit carrying the slot index. -/
inductive ProbeOut where
  | miss (target : Nat)
  | hit (idx : Nat)
deriving DecidableEq, Repr

/-- The probe loop of `Lv3_LinkedFlatMap::lookup`, walking `state`/`key`
only (the returned value pointer and generation are read off the hit slot
by `lookupD` below).  `fd` is the `first_del` accumulator.  The C++ loop is
unbounded; a fuel of `TableSize` is exact because the probe sequence is
periodic: `none` means the C++ loop never terminates. -/
def probeF (m : MapState K V) (k : K) (TS : Nat) : Nat → Nat → Option Nat → Option ProbeOut
  | 0, _, _ => none
  | fuel+1, i, fd =>
    let sl := slotAt m i
    if sl.state = SlotState.Empty then some (ProbeOut.miss (fd.getD i))
    else if sl.state = SlotState.Deleted then
      probeF m k TS fuel (nextSlot TS i) (if fd = none then some i else fd)
    else if sl.key = k then some (ProbeOut.hit i)
    else probeF m k TS fuel (nextSlot TS i) fd

/-- The `LookupResult` of the writer-side `lookup`: value pointer (null on
miss), index (hit index, or insertion target on miss) and generation. -/
structure LookRes (V : Type) where
  ptr : Option V
  idx : Nat
  gen : Nat
deriving DecidableEq, Repr

/-- `Lv3_LinkedFlatMap::lookup`, factored as the probe walk `probeF`
decorated with the hit slot's value and generation. -/
def lookupD (hK : K → Nat) (TS : Nat) (m : MapState K V) (k : K) : Option (LookRes V) :=
  match probeF m k TS TS (hashIdx hK TS k) none with
  | none => none
  | some (ProbeOut.miss t) => some ⟨none, t, 0⟩
  | some (ProbeOut.hit i) => some ⟨valueAt m i, i, genAt m i⟩

/-- The probe loop of `Lv3_LinkedFlatMap::assign_slot`: like `lookup` but
with no key comparison — returns the first Deleted slot seen, else the
Empty slot that terminates the probe. -/
def assignGo (m : MapState K V) (TS : Nat) : Nat → Nat → Option Nat → Option Nat
  | 0, _, _ => none
  | fuel+1, i, fd =>
    let sl := slotAt m i
    if sl.state = SlotState.Empty then some (fd.getD i)
    else if sl.state = SlotState.Deleted then
      assignGo m TS fuel (nextSlot TS i) (if fd = none then some i else fd)
    else assignGo m TS fuel (nextSlot TS i) fd

/-- `Lv3_LinkedFlatMap::assign_slot`. -/
def assignF (hK : K → Nat) (TS : Nat) (m : MapState K V) (k : K) : Option Nat :=
  assignGo m TS TS (hashIdx hK TS k) none

/-- Result of the reader-side `get_lockless` (`idx` is only meaningful on a
hit, where `ptr` is non-null; the C++ returns `NullIdx` on a miss). -/
structure GetRes (V : Type) where
  ptr : Option V
  idx : Nat
  gen : Nat
deriving DecidableEq, Repr

/-- The bounded reader loop of `Lv3_LinkedFlatMap::get_lockless`
(`for i < TableSize`).  Sequentially the odd-generation wait reloads the
same value (still odd ⟹ abort) and the post-copy generation recheck
trivially passes, which is how the two branches are rendered here. -/
def getLockGo (m : MapState K V) (k : K) (TS : Nat) : Nat → Nat → GetRes V
  | 0, _ => ⟨none, 0, 0⟩
  | fuel+1, i =>
    let sl := slotAt m i
    if sl.gen % 2 = 1 then ⟨none, 0, 0⟩
    else if sl.state = SlotState.Empty then ⟨none, 0, 0⟩
    else if sl.state = SlotState.Occupied ∧ sl.key = k then ⟨sl.value, i, sl.gen⟩
    else getLockGo m k TS fuel (nextSlot TS i)

/-- `Lv3_LinkedFlatMap::get_lockless`. -/
def getLocklessF (hK : K → Nat) (TS : Nat) (m : MapState K V) (k : K) : GetRes V :=
  getLockGo m k TS TS (hashIdx hK TS k)

/-- `Lv3_LinkedFlatMap::update_slot`: odd/even generation protocol around an
in-place value replacement; returns the displaced value handle.  The final
generation is `u32 (gen + 2)` (two `uint32_t` stores of `gen+1`, `gen+2`). -/
def updateSlot (m : MapState K V) (i : Nat) (v : V) : MapState K V × Option V :=
  let sl := slotAt m i
  let old := sl.value
  (setSlot m i { sl with
      gen := u32 (sl.gen + 2)
      state := SlotState.Occupied
      value := some v }, old)

/-- `Lv3_LinkedFlatMap::emplace_at`: publish a new key/value into a slot
(generation bumped twice, state set to Occupied, size incremented). -/
def emplaceAt (m : MapState K V) (i : Nat) (k : K) (v : V) : MapState K V :=
  let sl := slotAt m i
  let m1 := setSlot m i { sl with
      gen := u32 (u32 (sl.gen + 1) + 1)
      key := k
      state := SlotState.Occupied
      value := some v }
  { m1 with size := m1.size + 1 }

/-- `Lv3_LinkedFlatMap::detach`: unlink a slot from the intrusive list.
Each branch mirrors one line of the C++ (`next`/`prev` of the neighbours,
else the `tail`/`head` field), then the slot's own links are nulled. -/
def detach (m : MapState K V) (i : Nat) : MapState K V :=
  let n := (slotAt m i).next
  let p := (slotAt m i).prev
  let m1 := match n with
    | some ni => setSlot m ni { slotAt m ni with prev := p }
    | none => { m with tail := p }
  let m2 := match p with
    | some pi => setSlot m1 pi { slotAt m1 pi with next := n }
    | none => { m1 with head := n }
  setSlot m2 i { slotAt m2 i with next := none, prev := none }

/-- `Lv3_LinkedFlatMap::push_front`: link a slot in as the new list head. -/
def pushFront (m : MapState K V) (i : Nat) : MapState K V :=
  let oldHead := m.head
  let m1 := setSlot m i { slotAt m i with next := m.head, prev := none }
  let m2 := match oldHead with
    | some hi => setSlot m1 hi { slotAt m1 hi with prev := some i }
    | none => m1
  let m3 := { m2 with head := some i }
  if m3.tail = none then { m3 with tail := some i } else m3

/-- `Lv3_LinkedFlatMap::move_to_front` (the `NullIdx` guard is dropped
because every call site passes a concrete slot index). -/
def moveToFront (m : MapState K V) (i : Nat) : MapState K V :=
  if m.head = some i then m else pushFront (detach m i) i

/-- `Lv3_LinkedFlatMap::erase_index`: detach, tombstone, decrement size. -/
def eraseIndex (m : MapState K V) (i : Nat) : MapState K V :=
  if stateAt m i ≠ SlotState.Occupied then m
  else
    let m1 := detach m i
    let sl := slotAt m1 i
    let m2 := setSlot m1 i { sl with
        gen := u32 (u32 (sl.gen + 1) + 1)
        value := none
        state := SlotState.Deleted }
    { m2 with size := m2.size - 1 }

/-- `Lv3_LinkedFlatMap::is_valid_gen`. -/
def isValidGen (m : MapState K V) (i g : Nat) : Bool :=
  decide (stateAt m i = SlotState.Occupied) && decide (genAt m i = g)

/-- Number of Occupied slots of the table (the quantity the stored `_size`
counter is meant to track). -/
def occCount (m : MapState K V) : Nat :=
  m.slots.countP (fun s => decide (s.state = SlotState.Occupied))

/-- Number of Empty slots of the table (the probe-termination resource). -/
def emptyCount (m : MapState K V) : Nat :=
  m.slots.countP (fun s => decide (s.state = SlotState.Empty))

end LRUModel

namespace LRUModel

/-- The trace element `UpdateOp = (slot index, observed generation)`. -/
structure UOp where
  idx : Nat
  gen : Nat
deriving DecidableEq, Repr

instance : Inhabited UOp := ⟨⟨0, 0⟩⟩

/-- State of one `SPSC_RingBufferUltraFast` with capacity `RC`: the buffer
array, the producer-owned `tail` with its `head_cache`, and the
consumer-owned `head` with its `tail_cache`. -/
structure SpscRing (A : Type) where
  buffer : List A
  tail : Nat
  headCache : Nat
  head : Nat
  tailCache : Nat
deriving DecidableEq, Repr

instance (A : Type) : Inhabited (SpscRing A) := ⟨⟨[], 0, 0, 0, 0⟩⟩

/-- `increment`: `(i + 1) & (Capacity - 1)`, i.e. mod `RC` for the
power-of-two capacities the C++ admits. -/
def ringInc (RC i : Nat) : Nat := (i + 1) % RC

/-- A fresh ring of capacity `RC`. -/
def initRing (A : Type) [Inhabited A] (RC : Nat) : SpscRing A :=
  ⟨List.replicate RC default, 0, 0, 0, 0⟩

/-- `SPSC_RingBufferUltraFast::push`: predicted-full check against the
cached head, refresh of the cache on the slow path, write-then-publish. -/
def pushR {A : Type} (RC : Nat) (r : SpscRing A) (x : A) : Bool × SpscRing A :=
  let t := r.tail
  if ringInc RC t = r.headCache then
    let hc := r.head
    if ringInc RC t = hc then (false, { r with headCache := hc })
    else (true, { r with
        headCache := hc
        buffer := r.buffer.set t x
        tail := ringInc RC t })
  else (true, { r with buffer := r.buffer.set t x, tail := ringInc RC t })

/-- `SPSC_RingBufferUltraFast::pop`: predicted-empty check against the
cached tail, refresh of the cache on the slow path, copy-then-advance. -/
def popR {A : Type} [Inhabited A] (RC : Nat) (r : SpscRing A) : Option A × SpscRing A :=
  let h := r.head
  if h = r.tailCache then
    let tc := r.tail
    if h = tc then (none, { r with tailCache := tc })
    else (some (r.buffer.getD h default), { r with
        tailCache := tc
        head := ringInc RC h })
  else (some (r.buffer.getD h default), { r with head := ringInc RC h })

/-- Circular distance from `b` up to `a` modulo `RC`: the number of pending
items when `a` is the tail and `b` the head. -/
def cnt (RC a b : Nat) : Nat := (a + RC - b) % RC

/-- Abstraction of the ring state to the queue of pending items, oldest
first. -/
def ringContents {A : Type} [Inhabited A] (RC : Nat) (r : SpscRing A) : List A :=
  (List.range (cnt RC r.tail r.head)).map (fun j => r.buffer.getD ((r.head + j) % RC) default)

/-- The ring representation invariant: the buffer has length `RC`, all four
indices are reduced, the producer's cached view never undercounts the
pending items and the consumer's cached view never overcounts them. -/
def RingInv {A : Type} (RC : Nat) (r : SpscRing A) : Prop :=
  r.buffer.length = RC ∧ r.tail < RC ∧ r.head < RC ∧ r.headCache < RC ∧
  r.tailCache < RC ∧ cnt RC r.tail r.head ≤ cnt RC r.tail r.headCache ∧
  cnt RC r.tailCache r.head ≤ cnt RC r.tail r.head

instance {A : Type} (RC : Nat) (r : SpscRing A) : Decidable (RingInv RC r) := by
  unfold RingInv
  infer_instance

/-- State of the `EpochManager`: the global `uint64_t` epoch and the
per-thread active-epoch registry. -/
structure EpochMgr where
  global : Nat
  threads : List Nat
deriving DecidableEq, Repr

/-- A fresh epoch manager: global epoch 1, all thread slots 0. -/
def initEpochs (M : Nat) : EpochMgr := ⟨1, List.replicate M 0⟩

/-- `EpochManager::enter_epoch`: stamp the current global epoch into the
calling thread's slot. -/
def enterEpoch (e : EpochMgr) (tid : Nat) : EpochMgr :=
  { e with threads := e.threads.set tid e.global }

/-- `EpochManager::leave_epoch`: clear the calling thread's slot. -/
def leaveEpoch (e : EpochMgr) (tid : Nat) : EpochMgr :=
  { e with threads := e.threads.set tid 0 }

/-- `EpochManager::bump_epoch` (the returned previous value is unused by
`put`, so only the state effect is modelled). -/
def bumpEpoch (e : EpochMgr) : EpochMgr :=
  { e with global := u64 (e.global + 1) }

/-- `EpochManager::get_min_active`: start from the current global epoch and
fold over the registry, taking any smaller nonzero entry. -/
def getMinActive (e : EpochMgr) : Nat :=
  e.threads.foldl (fun acc x => if x ≠ 0 ∧ x < acc then x else acc) e.global

/-- `std::has_single_bit` (the `PowerOfTwoValue` concept): nonzero and no
bit shared with its predecessor. -/
def isPow2 (n : Nat) : Bool := decide (n ≠ 0) && decide (Nat.land n (n - 1) = 0)

/-- The per-reader trace-ring capacity `Lv5_bdFlatLRU` instantiates:
`Capacity / (4 * MaxThreads)`. -/
def lv5RingCap (Cap M : Nat) : Nat := Cap / (4 * M)

/-- The compile-time requirements of an `Lv5_bdFlatLRU<K, V, Cap, M>`
instantiation: `Capacity`, `MaxThreads` and the derived SPSC ring capacity
must all be powers of two (`static_assert`s of `Lv3_LinkedFlatMap`,
`Lv5_bdFlatLRU` and `SPSC_RingBufferUltraFast`). -/
def validLv5Config (Cap M : Nat) : Prop :=
  isPow2 Cap = true ∧ isPow2 M = true ∧ isPow2 (lv5RingCap Cap M) = true

instance (Cap M : Nat) : Decidable (validLv5Config Cap M) := by
  unfold validLv5Config
  infer_instance

end LRUModel

namespace LRUModel

variable {K V : Type} [DecidableEq K] [DecidableEq V] [Inhabited K]

/-- State of one `Lv5_bdFlatLRU` shard: the per-reader SPSC rings, the
dirty bitmap, the retirement list (value handle, retirement epoch), the
linked flat map and the inherited epoch manager. -/
structure Shard (K V : Type) where
  buffers : List (SpscRing UOp)
  dirty : Nat
  retired : List (Option V × Nat)
  col : MapState K V
  epochs : EpochMgr
deriving DecidableEq

/-- A fresh shard for capacity `Cap`, `M` reader slots and trace rings of
capacity `RC` (the source fixes `RC = lv5RingCap Cap M`; it is kept
explicit so that the degenerate values this formula produces at small
capacities can be discussed). -/
def initShard (K V : Type) [Inhabited K] (Cap M RC : Nat) : Shard K V :=
  { buffers := List.replicate M (initRing UOp RC)
    dirty := 0
    retired := []
    col := initMap (2 * Cap)
    epochs := initEpochs M }

/-- `countr_zero` of a nonzero word, by fueled recursion on the low bits. -/
def ctzF : Nat → Nat → Nat
  | 0, _ => 0
  | fuel+1, n => if n % 2 = 1 then 0 else 1 + ctzF fuel (n / 2)

/-- `mask &= (mask - 1)`: clear the lowest set bit. -/
def clearLow (n : Nat) : Nat := Nat.land n (n - 1)

/-- The bit positions `for_each_bit` visits, lowest first (the loop pops
`countr_zero` and clears the lowest bit until the mask is zero; a 64-bit
mask is exhausted within 64 iterations). -/
def bitsAsc : Nat → Nat → List Nat
  | 0, _ => []
  | fuel+1, mask => if mask = 0 then [] else ctzF 64 mask :: bitsAsc fuel (clearLow mask)

/-- `Lv5_bdFlatLRU::process_buffer`: pop traces until the ring reports
empty; honour each trace by `move_to_front` exactly when `is_valid_gen`
accepts it.  The C++ loop is bounded by the ring occupancy; fuel `RC`
always suffices (at most `RC - 1` items are ever pending). -/
def processBufferF (RC : Nat) : Nat → MapState K V → SpscRing UOp → MapState K V × SpscRing UOp
  | 0, m, r => (m, r)
  | fuel+1, m, r =>
    match popR RC r with
    | (none, r2) => (m, r2)
    | (some op, r2) =>
      let m2 := if isValidGen m op.idx op.gen then moveToFront m op.idx else m
      processBufferF RC fuel m2 r2

/-- The recency-honouring step a drained trace induces: splice the slot to
the front exactly when the trace is still valid. -/
def honorStep (mm : MapState K V) (op : UOp) : MapState K V :=
  if isValidGen mm op.idx op.gen then moveToFront mm op.idx else mm

/-- Drain the ring of one reader slot into the shard. -/
def processShardBuf (RC : Nat) (s : Shard K V) (i : Nat) : Shard K V :=
  let pr := processBufferF RC RC s.col (s.buffers.getD i default)
  { s with col := pr.1, buffers := s.buffers.set i pr.2 }

/-- `Lv5_bdFlatLRU::cleanup_retired`: drop retired entries whose epoch is
below the minimum active epoch (`std::erase_if (epoch < min_e)`). -/
def cleanupRetired (s : Shard K V) : Shard K V :=
  let minE := getMinActive s.epochs
  { s with retired := s.retired.filter (fun ob => !(decide (ob.2 < minE))) }

/-- `Lv5_bdFlatLRU::apply_updates`: exchange the dirty mask for zero, drain
the ring of every set bit (lowest first), then clean the retirement list
when it is nonempty. -/
def applyUpdates (RC : Nat) (s : Shard K V) : Shard K V :=
  let mask := s.dirty
  let s1 := { s with dirty := 0 }
  let s2 := (bitsAsc 64 mask).foldl (processShardBuf RC) s1
  if s2.retired ≠ [] then cleanupRetired s2 else s2

/-- `Lv5_bdFlatLRU::mark_access`: push the trace into the calling thread's
ring; on success make sure the thread's dirty bit is set (the test-then-set
of the C++ has the same net effect as an unconditional bitwise or). -/
def markAccess (RC : Nat) (s : Shard K V) (tid : Nat) (i g : Nat) : Shard K V :=
  let pr := pushR RC (s.buffers.getD tid default) ⟨i, g⟩
  let s1 := { s with buffers := s.buffers.set tid pr.2 }
  match pr.1 with
  | true => { s1 with dirty := Nat.lor s1.dirty (2 ^ tid) }
  | false => s1

/-- `Lv5_bdFlatLRU::commit_put`: re-lookup under the lock; update in place
(retiring the displaced handle), or insert, evicting the list tail first
when the shard is full.  `none` models the C++ diverging (a probe that
never terminates) or indexing with the null sentinel (empty list at full
size), neither of which is reachable from the initial state. -/
def commitPut (Cap : Nat) (hK : K → Nat) (s : Shard K V) (k : K) (v : V) : Option (Shard K V) :=
  match lookupD hK (2 * Cap) s.col k with
  | none => none
  | some res =>
    if res.ptr ≠ none then
      let pr := updateSlot s.col res.idx v
      some { s with
          col := moveToFront pr.1 res.idx
          retired := s.retired ++ [(pr.2, s.epochs.global)] }
    else
      if Cap ≤ s.col.size then
        match s.col.tail with
        | none => none
        | some te =>
          let ev := valueAt s.col te
          let m1 := eraseIndex s.col te
          match assignF hK (2 * Cap) m1 k with
          | none => none
          | some t =>
            some { s with
                col := moveToFront (emplaceAt m1 t k v) t
                retired := s.retired ++ [(ev, s.epochs.global)] }
      else
        some { s with col := moveToFront (emplaceAt s.col res.idx k v) res.idx }

/-- `Lv5_bdFlatLRU::put`: quiet-update fast path under the lock (existing
value equal to the new one ⟹ only splice to front); otherwise allocate,
re-lock, bump the epoch, drain pending traces when the dirty mask is
nonzero, commit, and clean the retirement list past 64 entries. -/
def lv5Put (Cap : Nat) (hK : K → Nat) (RC : Nat) (s : Shard K V) (k : K) (v : V) : Option (Shard K V) :=
  match lookupD hK (2 * Cap) s.col k with
  | none => none
  | some res =>
    if res.ptr = some v then
      some { s with col := moveToFront s.col res.idx }
    else
      let s1 := { s with epochs := bumpEpoch s.epochs }
      let s2 := if s1.dirty ≠ 0 then applyUpdates RC s1 else s1
      match commitPut Cap hK s2 k v with
      | none => none
      | some s3 =>
        some (if 64 ≤ s3.retired.length then cleanupRetired s3 else s3)

/-- `Lv5_bdFlatLRU::get` for a caller with thread id `tid`: enter the
epoch, lockless lookup, on a hit record the trace and set the dirty bit;
the epoch guard is released on every return path. -/
def lv5Get (Cap : Nat) (hK : K → Nat) (RC : Nat) (s : Shard K V) (tid : Nat) (k : K) :
    Option V × Shard K V :=
  let s1 := { s with epochs := enterEpoch s.epochs tid }
  let res := getLocklessF hK (2 * Cap) s1.col k
  match res.ptr with
  | none => (none, { s1 with epochs := leaveEpoch s1.epochs tid })
  | some w =>
    let s2 := markAccess RC s1 tid res.idx res.gen
    (some w, { s2 with epochs := leaveEpoch s2.epochs tid })

/-- One shard operation: a `put`, or a `get` by reader `tid`. -/
inductive CacheOp (K V : Type) where
  | put (k : K) (v : V)
  | get (tid : Nat) (k : K)

/-- Run one operation (the `get` result is discarded, only the state
evolves; a `put` that diverges absorbs the run into `none`). -/
def runOp (Cap : Nat) (hK : K → Nat) (RC : Nat) (s : Shard K V) : CacheOp K V → Option (Shard K V)
  | CacheOp.put k v => lv5Put Cap hK RC s k v
  | CacheOp.get tid k => some (lv5Get Cap hK RC s tid k).2

/-- Run a list of operations from a given shard state. -/
def runOps (Cap : Nat) (hK : K → Nat) (RC : Nat) (s : Shard K V) : List (CacheOp K V) → Option (Shard K V)
  | [] => some s
  | op :: rest =>
    match runOp Cap hK RC s op with
    | none => none
    | some s2 => runOps Cap hK RC s2 rest

/-- Run a list of `put` operations from a given shard state. -/
def runPuts (Cap : Nat) (hK : K → Nat) (RC : Nat) (s : Shard K V) : List (K × V) → Option (Shard K V)
  | [] => some s
  | kv :: rest =>
    match lv5Put Cap hK RC s kv.1 kv.2 with
    | none => none
    | some s2 => runPuts Cap hK RC s2 rest

/-- All slot generations of the map are even (the quiescent sequence-lock
invariant). -/
def EvenAll (m : MapState K V) : Prop := ∀ j, genAt m j % 2 = 0

/-- Occupied slots hold a non-null value handle (every publication stores
one; only erasure clears it, tombstoning the slot). -/
def ValuedOcc (TS : Nat) (m : MapState K V) : Prop :=
  ∀ j, j < TS → stateAt m j = SlotState.Occupied → valueAt m j ≠ none

/-- The inductive invariant of a shard reached by `put` operations alone:
the slot count is the table size, the stored size counter counts the
Occupied slots and is bounded by the capacity, every slot's intrusive
links are null, the recency list is empty or the singleton of an Occupied
in-range slot, it is nonempty whenever the table is, Occupied slots hold
values, and the dirty mask is zero (no reader ever ran). -/
def PutInv (Cap : Nat) (s : Shard K V) : Prop :=
  s.col.slots.length = 2 * Cap ∧
  s.col.size = occCount s.col ∧
  s.col.size ≤ Cap ∧
  s.col.head = s.col.tail ∧
  (∀ j, (slotAt s.col j).next = none ∧ (slotAt s.col j).prev = none) ∧
  (∀ h, s.col.head = some h → h < 2 * Cap ∧ stateAt s.col h = SlotState.Occupied) ∧
  (s.col.size ≠ 0 → s.col.head ≠ none) ∧
  ValuedOcc (2 * Cap) s.col ∧
  s.dirty = 0

end LRUModel

namespace LRUModel

/-
Concrete scenario states.  Keys and values are natural numbers and the
hash function is the identity, matching `std::hash` on integral keys.
Payload encoding for the spec's symbolic values: a = 10, b = 11, c = 12,
d = 13 (capacity-2 scenario) and a = 20 (capacity-4 scenario).
-/

/-- Fresh capacity-2 single shard, one reader slot, with the trace ring
modelled at capacity 2 — the source formula `Capacity / (4 * MaxThreads)`
yields 0 here, which no `MaxThreads` can repair (see `noValidCapTwo`). -/
def scenB0 : Shard Nat Nat := initShard Nat Nat 2 1 2

/-- Capacity-2 scenario after `put(1,a); put(2,b); put(1,c)`. -/
def scenBMid : Option (Shard Nat Nat) :=
  runOps 2 id 2 scenB0 [CacheOp.put 1 10, CacheOp.put 2 11, CacheOp.put 1 12]

/-- Capacity-2 scenario after `put(1,a); put(2,b); put(1,c); get(2);
put(3,d)`. -/
def scenBEnd : Option (Shard Nat Nat) :=
  runOps 2 id 2 scenB0 [CacheOp.put 1 10, CacheOp.put 2 11, CacheOp.put 1 12,
    CacheOp.get 0 2, CacheOp.put 3 13]

/-- Fresh capacity-4 single shard with one reader slot and the ring
capacity the source formula gives it: `lv5RingCap 4 1 = 1` (a capacity-1
ring can hold no element, so every trace push fails). -/
def scenA0 : Shard Nat Nat := initShard Nat Nat 4 1 (lv5RingCap 4 1)

/-- Capacity-4 scenario after `put(1,a); put(2,a); put(3,a); put(4,a);
get(1); put(5,a)`. -/
def scenAEnd : Option (Shard Nat Nat) :=
  runOps 4 id (lv5RingCap 4 1) scenA0 [CacheOp.put 1 20, CacheOp.put 2 20,
    CacheOp.put 3 20, CacheOp.put 4 20, CacheOp.get 0 1, CacheOp.put 5 20]

/-- Capacity-4 shard driven through eight inserts of distinct keys 0..7
with identity hashing: every eviction tombstones one slot while the new
key occupies a previously Empty slot, so the table ends with zero Empty
slots. -/
def fragRun : Option (Shard Nat Nat) :=
  runPuts 4 id 1 (initShard Nat Nat 4 1 1)
    [(0, 99), (1, 99), (2, 99), (3, 99), (4, 99), (5, 99), (6, 99), (7, 99)]

end LRUModel

namespace LRUModel

/-- No `MaxThreads` makes a capacity-2 `Lv5_bdFlatLRU` shard instantiable:
the trace-ring capacity `2 / (4 * M)` is 0, and 0 is not a power of two. -/
theorem noValidCapTwo : ¬ ∃ M, validLv5Config 2 M := by
  rintro ⟨M, -, hM, hR⟩
  have hM0 : M ≠ 0 := by
    intro h
    subst h
    simp [isPow2] at hM
  have hz : lv5RingCap 2 M = 0 := by
    unfold lv5RingCap
    exact Nat.div_eq_of_lt (by omega)
  rw [hz] at hR
  simp [isPow2] at hR

/-- C1: the claim presupposes a single `Lv5_bdFlatLRU` shard with
`Capacity = 2`; no such shard exists, because the per-reader SPSC ring is
instantiated at capacity `Capacity / (4 * MaxThreads) = 0` for every
`MaxThreads`, which fails the ring's power-of-two `static_assert`. -/
theorem claimC1_counterexample : ¬ ∃ M, validLv5Config 2 M := noValidCapTwo

/-- C1 (amended): no capacity-2 shard is instantiable; modelling the trace
ring at capacity 2 instead of the formula's 0, the claimed observations
all hold: after `put(1,a); put(2,b); put(1,c)` a `get(2)` returns `b`, and
after the subsequent `put(3,d)` a `get(2)` returns null while `get(1)`
returns `c` (key 2 was evicted). -/
theorem claimC1_amended :
    (¬ ∃ M, validLv5Config 2 M) ∧
    scenBMid.map (fun s => (lv5Get 2 id 2 s 0 2).1) = some (some 11) ∧
    scenBEnd.map (fun s => ((lv5Get 2 id 2 s 0 2).1, (lv5Get 2 id 2 s 0 1).1))
      = some (none, some 12) :=
  ⟨noValidCapTwo, by decide, by decide⟩

/-- C2: evaluating the code at the failing input.  `Capacity = 4` admits
exactly one `MaxThreads` (namely 1, giving ring capacity 1); running
`put(1,a); put(2,a); put(3,a); put(4,a); get(1); put(5,a)` on that shard
evicts key 4 — not key 2 as the claim and the spec's scenario A demand:
afterwards `get(4)` is null while `get(2)`, `get(1)` and `get(3)` all
still hit.  Two defects cause this: a capacity-1 ring holds no element, so
the recency hint of `get(1)` is dropped instead of drained, and
`commit_put`'s trailing `move_to_front` on a freshly emplaced slot runs
`detach` on null links, which resets `head`/`tail` and orphans every other
entry — the recency list always holds exactly the most recently committed
key, which is therefore the eviction victim. -/
theorem claimC2_code_divergence :
    validLv5Config 4 1 ∧
    scenAEnd.map (fun s => ((lv5Get 4 id (lv5RingCap 4 1) s 0 4).1,
        (lv5Get 4 id (lv5RingCap 4 1) s 0 2).1,
        (lv5Get 4 id (lv5RingCap 4 1) s 0 1).1,
        (lv5Get 4 id (lv5RingCap 4 1) s 0 3).1))
      = some (none, some 20, some 20, some 20) :=
  ⟨by decide, by decide⟩

/-- C4: evaluating the code at the failing input.  The state reached by
the eight inserts of `fragRun` is a valid configuration of the shard in
which not a single table slot is Empty (four Occupied slots and four
tombstones fill the 8-slot table), so no probe for an absent key can ever
meet an Empty slot — within `TableSize / 2` steps or any number of steps —
and the next `put(8, ...)` makes the unbounded probe loop of
`Lv3_LinkedFlatMap::lookup` run forever (modelled by `none`), refuting the
claimed probing invariant together with the comment above the loop's
unreachable assertion. -/
theorem claimC4_probe_divergence :
    validLv5Config 4 1 ∧
    fragRun.map (fun s => emptyCount s.col) = some 0 ∧
    fragRun.map (fun s => lookupD id 8 s.col 8) = some none ∧
    fragRun.map (fun s => (lv5Put 4 id 1 s 8 99).isNone) = some true :=
  ⟨by decide, by decide, by decide, by decide⟩

end LRUModel

namespace LRUModel

theorem getD_set_self {α : Type} : ∀ (l : List α) (i : Nat) (x d : α), i < l.length →
    (l.set i x).getD i d = x
  | [], i, x, d, h => absurd h (by simp)
  | a :: l, 0, x, d, _ => rfl
  | a :: l, i+1, x, d, h => getD_set_self l i x d (by simpa using h)

theorem getD_set_ne {α : Type} : ∀ (l : List α) (i j : Nat) (x d : α), i ≠ j →
    (l.set i x).getD j d = l.getD j d
  | [], _, _, _, _, _ => by simp
  | a :: l, 0, 0, x, d, h => absurd rfl h
  | a :: l, 0, j+1, x, d, _ => rfl
  | a :: l, i+1, 0, x, d, _ => rfl
  | a :: l, i+1, j+1, x, d, h => getD_set_ne l i j x d (by omega)

theorem cnt_eq {RC a b : Nat} (ha : a < RC) (hb : b < RC) :
    cnt RC a b = if b ≤ a then a - b else a + RC - b := by
  unfold cnt
  rcases le_or_lt b a with h | h
  · have h1 : a + RC - b = (a - b) + RC := by omega
    rw [if_pos h, h1, Nat.add_mod_right, Nat.mod_eq_of_lt (by omega)]
  · rw [if_neg (by omega), Nat.mod_eq_of_lt (by omega)]

theorem ringInc_lt {RC i : Nat} (h : 0 < RC) : ringInc RC i < RC := Nat.mod_lt _ h

theorem ringInc_eq {RC i : Nat} (h : i < RC) :
    ringInc RC i = if i + 1 = RC then 0 else i + 1 := by
  unfold ringInc
  by_cases hc : i + 1 = RC
  · rw [if_pos hc, hc, Nat.mod_self]
  · rw [if_neg hc, Nat.mod_eq_of_lt (by omega)]

theorem cnt_lt (RC a b : Nat) (h : 0 < RC) : cnt RC a b < RC := Nat.mod_lt _ h

theorem cnt_full_iff {RC a b : Nat} (ha : a < RC) (hb : b < RC) :
    cnt RC a b = RC - 1 ↔ ringInc RC a = b := by
  rw [cnt_eq ha hb, ringInc_eq ha]
  split_ifs <;> omega

theorem cnt_zero_iff {RC a b : Nat} (ha : a < RC) (hb : b < RC) :
    cnt RC a b = 0 ↔ a = b := by
  rw [cnt_eq ha hb]
  split_ifs <;> omega

theorem cnt_inc_left {RC a b : Nat} (ha : a < RC) (hb : b < RC)
    (h : cnt RC a b < RC - 1) : cnt RC (ringInc RC a) b = cnt RC a b + 1 := by
  have hia : ringInc RC a < RC := ringInc_lt (by omega)
  rw [cnt_eq hia hb, cnt_eq ha hb] at *
  rw [ringInc_eq ha] at *
  split_ifs at * <;> omega

theorem cnt_inc_right {RC a b : Nat} (ha : a < RC) (hb : b < RC)
    (h : 0 < cnt RC a b) : cnt RC a (ringInc RC b) = cnt RC a b - 1 := by
  have hib : ringInc RC b < RC := ringInc_lt (by omega)
  rw [cnt_eq ha hib, cnt_eq ha hb] at *
  rw [ringInc_eq hb] at *
  split_ifs at * <;> omega

theorem idx_of_cnt {RC t h : Nat} (ht : t < RC) (hh : h < RC) :
    (h + cnt RC t h) % RC = t := by
  rw [cnt_eq ht hh]
  split_ifs with hc
  · rw [show h + (t - h) = t by omega, Nat.mod_eq_of_lt ht]
  · rw [show h + (t + RC - h) = t + RC by omega, Nat.add_mod_right, Nat.mod_eq_of_lt ht]

theorem small_mod {RC a : Nat} (h0 : 0 < RC) (h : a < 2 * RC) :
    a % RC = if a < RC then a else a - RC := by
  split_ifs with hc
  · exact Nat.mod_eq_of_lt hc
  · have ha : a = (a - RC) + RC := by omega
    conv_lhs => rw [ha]
    rw [Nat.add_mod_right, Nat.mod_eq_of_lt (by omega)]

theorem mod_add_inj {RC h j n : Nat} (hj : j < RC) (hn : n < RC)
    (he : (h + j) % RC = (h + n) % RC) : j = n := by
  have h0 : 0 < RC := by omega
  have hH : h % RC < RC := Nat.mod_lt _ h0
  have e1 : (h + j) % RC = (h % RC + j) % RC := by
    rw [Nat.add_mod h j RC, Nat.mod_eq_of_lt hj]
  have e2 : (h + n) % RC = (h % RC + n) % RC := by
    rw [Nat.add_mod h n RC, Nat.mod_eq_of_lt hn]
  rw [e1, e2] at he
  rw [small_mod h0 (show h % RC + j < 2 * RC by omega)] at he
  rw [small_mod h0 (show h % RC + n < 2 * RC by omega)] at he
  split_ifs at he <;> omega

end LRUModel

namespace LRUModel

variable {A : Type} [Inhabited A]

theorem contents_empty {RC : Nat} {r : SpscRing A}
    (he : cnt RC r.tail r.head = 0) : ringContents RC r = [] := by
  unfold ringContents
  rw [he]
  rfl

theorem contents_indep {RC : Nat} {r r2 : SpscRing A} (hb : r2.buffer = r.buffer)
    (h2t : r2.tail = r.tail) (h2h : r2.head = r.head) :
    ringContents RC r2 = ringContents RC r := by
  unfold ringContents
  rw [hb, h2t, h2h]

theorem contents_after_push {RC : Nat} {r r2 : SpscRing A} (x : A)
    (hlen : r.buffer.length = RC) (ht : r.tail < RC) (hh : r.head < RC)
    (hnf : cnt RC r.tail r.head < RC - 1)
    (hb : r2.buffer = r.buffer.set r.tail x) (h2t : r2.tail = ringInc RC r.tail)
    (h2h : r2.head = r.head) :
    ringContents RC r2 = ringContents RC r ++ [x] := by
  have h0 : 0 < RC := by omega
  unfold ringContents
  rw [hb, h2t, h2h, cnt_inc_left ht hh hnf, List.range_succ, List.map_append]
  congr 1
  · apply List.map_congr_left
    intro j hj
    have hjlt : j < cnt RC r.tail r.head := List.mem_range.mp hj
    apply getD_set_ne
    intro hEq
    have hidx := idx_of_cnt ht hh
    have hje : (r.head + j) % RC = (r.head + cnt RC r.tail r.head) % RC := by
      rw [hidx, ← hEq]
    have hcl := cnt_lt RC r.tail r.head h0
    have hjRC : j < RC := by omega
    have := mod_add_inj hjRC hcl hje
    omega
  · simp only [List.map_cons, List.map_nil]
    congr 1
    rw [idx_of_cnt ht hh]
    exact getD_set_self _ _ _ _ (by omega)

theorem contents_cons {RC : Nat} {r : SpscRing A}
    (ht : r.tail < RC) (hh : r.head < RC) (hpos : 0 < cnt RC r.tail r.head) :
    ringContents RC r = r.buffer.getD r.head default ::
      (List.range (cnt RC r.tail r.head - 1)).map
        (fun j => r.buffer.getD ((ringInc RC r.head + j) % RC) default) := by
  unfold ringContents
  obtain ⟨n, hn⟩ : ∃ n, cnt RC r.tail r.head = n + 1 := ⟨cnt RC r.tail r.head - 1, by omega⟩
  rw [hn, List.range_succ_eq_map, List.map_cons]
  congr 1
  · rw [Nat.add_zero, Nat.mod_eq_of_lt hh]
  · rw [List.map_map]
    rw [show n + 1 - 1 = n from rfl]
    apply List.map_congr_left
    intro j hj
    simp only [Function.comp_apply]
    congr 1
    unfold ringInc
    rw [Nat.mod_add_mod]
    congr 1
    omega

theorem contents_after_pop {RC : Nat} {r r2 : SpscRing A}
    (ht : r.tail < RC) (hh : r.head < RC) (hpos : 0 < cnt RC r.tail r.head)
    (hb : r2.buffer = r.buffer) (h2t : r2.tail = r.tail)
    (h2h : r2.head = ringInc RC r.head) :
    ringContents RC r = r.buffer.getD r.head default :: ringContents RC r2 := by
  rw [contents_cons ht hh hpos]
  congr 1
  unfold ringContents
  rw [hb, h2t, h2h, cnt_inc_right ht hh hpos]

end LRUModel

namespace LRUModel

variable {A : Type} [Inhabited A]

theorem ringInv_parts {RC : Nat} {r : SpscRing A} (hInv : RingInv RC r) :
    r.buffer.length = RC ∧ r.tail < RC ∧ r.head < RC ∧ r.headCache < RC ∧
    r.tailCache < RC ∧ cnt RC r.tail r.head ≤ cnt RC r.tail r.headCache ∧
    cnt RC r.tailCache r.head ≤ cnt RC r.tail r.head := hInv

theorem pushR_full {RC : Nat} {r : SpscRing A} (hInv : RingInv RC r) (x : A)
    (hf : cnt RC r.tail r.head = RC - 1) :
    (pushR RC r x).1 = false ∧ ringContents RC (pushR RC r x).2 = ringContents RC r ∧
    RingInv RC (pushR RC r x).2 := by
  obtain ⟨hlen, ht, hh, hhc, htc, hpc, hcc⟩ := hInv
  have h0 : 0 < RC := by omega
  have hih : ringInc RC r.tail = r.head := (cnt_full_iff ht hh).mp hf
  have hihc : ringInc RC r.tail = r.headCache := by
    have h1 : cnt RC r.tail r.headCache < RC := cnt_lt RC _ _ h0
    have h2 : cnt RC r.tail r.headCache = RC - 1 := by omega
    exact (cnt_full_iff ht hhc).mp h2
  unfold pushR
  rw [if_pos hihc, if_pos hih]
  dsimp only
  refine ⟨rfl, contents_indep rfl rfl rfl, hlen, ht, hh, hh, htc, ?_, hcc⟩
  exact Nat.le_refl _

theorem pushR_ok {RC : Nat} {r : SpscRing A} (hInv : RingInv RC r) (x : A)
    (hnf : cnt RC r.tail r.head ≠ RC - 1) :
    (pushR RC r x).1 = true ∧
    ringContents RC (pushR RC r x).2 = ringContents RC r ++ [x] ∧
    RingInv RC (pushR RC r x).2 := by
  obtain ⟨hlen, ht, hh, hhc, htc, hpc, hcc⟩ := hInv
  have h0 : 0 < RC := by omega
  have hcl := cnt_lt RC r.tail r.head h0
  have hlt : cnt RC r.tail r.head < RC - 1 := by omega
  have hih : ringInc RC r.tail ≠ r.head := fun hEq => hnf ((cnt_full_iff ht hh).mpr hEq)
  have hit : ringInc RC r.tail < RC := ringInc_lt h0
  have hinc := cnt_inc_left ht hh hlt
  unfold pushR
  by_cases hg : ringInc RC r.tail = r.headCache
  · rw [if_pos hg, if_neg hih]
    dsimp only
    refine ⟨rfl, contents_after_push x hlen ht hh hlt rfl rfl rfl, ?_, hit, hh, hh, htc, ?_, ?_⟩
    · simpa using hlen
    · exact Nat.le_refl _
    · show cnt RC r.tailCache r.head ≤ cnt RC (ringInc RC r.tail) r.head
      rw [hinc]
      omega
  · rw [if_neg hg]
    dsimp only
    have hchc : cnt RC r.tail r.headCache < RC - 1 := by
      have hclc := cnt_lt RC r.tail r.headCache h0
      rcases Nat.lt_or_ge (cnt RC r.tail r.headCache) (RC - 1) with h | h
      · exact h
      · exact absurd ((cnt_full_iff ht hhc).mp (by omega)) hg
    refine ⟨rfl, contents_after_push x hlen ht hh hlt rfl rfl rfl, ?_, hit, hh, hhc, htc, ?_, ?_⟩
    · simpa using hlen
    · show cnt RC (ringInc RC r.tail) r.head ≤ cnt RC (ringInc RC r.tail) r.headCache
      rw [hinc, cnt_inc_left ht hhc hchc]
      omega
    · show cnt RC r.tailCache r.head ≤ cnt RC (ringInc RC r.tail) r.head
      rw [hinc]
      omega

theorem popR_empty {RC : Nat} {r : SpscRing A} (hInv : RingInv RC r)
    (he : cnt RC r.tail r.head = 0) :
    (popR RC r).1 = none ∧ ringContents RC (popR RC r).2 = [] ∧
    RingInv RC (popR RC r).2 := by
  obtain ⟨hlen, ht, hh, hhc, htc, hpc, hcc⟩ := hInv
  have h0 : 0 < RC := by omega
  have hth : r.tail = r.head := (cnt_zero_iff ht hh).mp he
  have hgd : r.head = r.tailCache := by
    have hc0 : cnt RC r.tailCache r.head = 0 := by omega
    have := (cnt_zero_iff htc hh).mp hc0
    omega
  unfold popR
  dsimp only
  rw [if_pos hgd, if_pos hth.symm]
  dsimp only
  refine ⟨rfl, ?_, hlen, ht, hh, hhc, ht, hpc, ?_⟩
  · exact contents_empty (by simpa using he)
  · show cnt RC r.tail r.head ≤ cnt RC r.tail r.head
    omega

theorem popR_ok {RC : Nat} {r : SpscRing A} (hInv : RingInv RC r)
    (hne : cnt RC r.tail r.head ≠ 0) :
    (popR RC r).1 = some (r.buffer.getD r.head default) ∧
    ringContents RC r = r.buffer.getD r.head default :: ringContents RC (popR RC r).2 ∧
    RingInv RC (popR RC r).2 := by
  obtain ⟨hlen, ht, hh, hhc, htc, hpc, hcc⟩ := hInv
  have h0 : 0 < RC := by omega
  have hpos : 0 < cnt RC r.tail r.head := by omega
  have hth : ¬ r.head = r.tail := fun hEq => hne ((cnt_zero_iff ht hh).mpr hEq.symm)
  have hihlt : ringInc RC r.head < RC := ringInc_lt h0
  have hdec := cnt_inc_right ht hh hpos
  unfold popR
  dsimp only
  by_cases hg : r.head = r.tailCache
  · rw [if_pos hg, if_neg hth]
    dsimp only
    refine ⟨rfl, contents_after_pop ht hh hpos rfl rfl rfl, hlen, ht, hihlt, hhc, ht, ?_, ?_⟩
    · show cnt RC r.tail (ringInc RC r.head) ≤ cnt RC r.tail r.headCache
      rw [hdec]
      omega
    · exact Nat.le_refl _
  · rw [if_neg hg]
    dsimp only
    have hctc : 0 < cnt RC r.tailCache r.head := by
      rcases Nat.eq_zero_or_pos (cnt RC r.tailCache r.head) with hz | hp
      · exact absurd ((cnt_zero_iff htc hh).mp hz).symm hg
      · exact hp
    refine ⟨rfl, contents_after_pop ht hh hpos rfl rfl rfl, hlen, ht, hihlt, hhc, htc, ?_, ?_⟩
    · show cnt RC r.tail (ringInc RC r.head) ≤ cnt RC r.tail r.headCache
      rw [hdec]
      omega
    · show cnt RC r.tailCache (ringInc RC r.head) ≤ cnt RC r.tail (ringInc RC r.head)
      rw [hdec, cnt_inc_right htc hh hctc]
      omega

end LRUModel

namespace LRUModel

theorem contents_length {A : Type} [Inhabited A] (RC : Nat) (r : SpscRing A) :
    (ringContents RC r).length = cnt RC r.tail r.head := by
  simp [ringContents]

theorem isPow2_pos {n : Nat} (h : isPow2 n = true) : 0 < n := by
  simp [isPow2] at h
  omega

theorem initRing_inv {A : Type} [Inhabited A] {RC : Nat} (h0 : 0 < RC) :
    RingInv RC (initRing A RC) := by
  refine ⟨by simp [initRing], h0, h0, h0, h0, ?_, ?_⟩ <;> exact Nat.le_refl _

/-- C9: the SPSC trace ring with a power-of-two capacity refines a bounded
FIFO queue.  `ringContents` abstracts the ring state to the queue of
pending items, oldest first; from any state satisfying the representation
invariant, `push` fails exactly on a full queue (`RC - 1` items — the ring
deliberately keeps one slot free) and otherwise appends its item, `pop`
fails exactly on an empty queue and otherwise removes and returns the
oldest item, and both preserve the invariant.  Items are therefore
delivered in push order.  The fresh ring is a valid empty queue. -/
theorem claimC9_ring_fifo {A : Type} [Inhabited A] (RC : Nat) (hp : isPow2 RC = true)
    (r : SpscRing A) (hInv : RingInv RC r) (x : A) :
    (RingInv RC (initRing A RC) ∧ ringContents RC (initRing A RC) = []) ∧
    ((pushR RC r x).1 = false ↔ (ringContents RC r).length = RC - 1) ∧
    ((pushR RC r x).1 = false → ringContents RC (pushR RC r x).2 = ringContents RC r) ∧
    ((pushR RC r x).1 = true → ringContents RC (pushR RC r x).2 = ringContents RC r ++ [x]) ∧
    RingInv RC (pushR RC r x).2 ∧
    ((popR RC r).1 = none ↔ ringContents RC r = []) ∧
    (∀ y ys, ringContents RC r = y :: ys →
      (popR RC r).1 = some y ∧ ringContents RC (popR RC r).2 = ys) ∧
    RingInv RC (popR RC r).2 := by
  have h0 : 0 < RC := isPow2_pos hp
  have hlen := contents_length RC r
  refine ⟨⟨initRing_inv h0, contents_empty (by simp [initRing, cnt])⟩, ?_, ?_, ?_, ?_, ?_, ?_, ?_⟩
  · by_cases hf : cnt RC r.tail r.head = RC - 1
    · rw [(pushR_full hInv x hf).1]
      simp [hlen, hf]
    · rw [(pushR_ok hInv x hf).1]
      simp only [hlen]
      constructor
      · intro hc
        exact absurd hc (by simp)
      · intro hc
        exact absurd hc hf
  · intro hfalse
    by_cases hf : cnt RC r.tail r.head = RC - 1
    · exact (pushR_full hInv x hf).2.1
    · rw [(pushR_ok hInv x hf).1] at hfalse
      exact absurd hfalse (by simp)
  · intro htrue
    by_cases hf : cnt RC r.tail r.head = RC - 1
    · rw [(pushR_full hInv x hf).1] at htrue
      exact absurd htrue (by simp)
    · exact (pushR_ok hInv x hf).2.1
  · by_cases hf : cnt RC r.tail r.head = RC - 1
    · exact (pushR_full hInv x hf).2.2
    · exact (pushR_ok hInv x hf).2.2
  · by_cases hz : cnt RC r.tail r.head = 0
    · rw [(popR_empty hInv hz).1]
      simp only [true_iff]
      exact contents_empty hz
    · rw [(popR_ok hInv hz).1]
      constructor
      · intro hc
        exact absurd hc (by simp)
      · intro hc
        have := contents_length RC r
        rw [hc] at this
        simp at this
        omega
  · intro y ys hys
    have hz : cnt RC r.tail r.head ≠ 0 := by
      intro hz
      rw [contents_empty hz] at hys
      exact absurd hys (by simp)
    obtain ⟨h1, h2, h3⟩ := popR_ok hInv hz
    rw [hys] at h2
    obtain ⟨hy, hrest⟩ := List.cons.injEq .. ▸ h2
    exact ⟨by rw [h1, hy], hrest.symm⟩
  · by_cases hz : cnt RC r.tail r.head = 0
    · exact (popR_empty hInv hz).2.2
    · exact (popR_ok hInv hz).2.2

/-- Closed witness for C9 at a concrete ring: capacity 2, fresh state. -/
theorem claimC9_ring_fifo_witness :
    isPow2 2 = true ∧ RingInv 2 (initRing Nat 2) ∧
    ((pushR 2 (initRing Nat 2) 5).1 = true →
      ringContents 2 (pushR 2 (initRing Nat 2) 5).2 = ringContents 2 (initRing Nat 2) ++ [5]) :=
  ⟨by decide, by decide,
    (claimC9_ring_fifo 2 (by decide) (initRing Nat 2) (by decide) 5).2.2.2.1⟩

end LRUModel

namespace LRUModel

variable {K V : Type} [DecidableEq K] [DecidableEq V] [Inhabited K]

theorem processBuffer_drain {RC : Nat} :
    ∀ (fuel : Nat) (m : MapState K V) (r : SpscRing UOp), RingInv RC r →
      cnt RC r.tail r.head < fuel →
      (processBufferF RC fuel m r).1 = (ringContents RC r).foldl honorStep m ∧
      ringContents RC (processBufferF RC fuel m r).2 = [] ∧
      RingInv RC (processBufferF RC fuel m r).2 := by
  intro fuel
  induction fuel with
  | zero => intro m r _ hc; omega
  | succ n ih =>
    intro m r hInv hc
    by_cases hz : cnt RC r.tail r.head = 0
    · obtain ⟨h1, h2, h3⟩ := popR_empty (A := UOp) hInv hz
      rcases hpr : popR RC r with ⟨o, r2⟩
      rw [hpr] at h1 h2 h3
      simp only at h1 h2 h3
      subst h1
      simp only [processBufferF, hpr]
      refine ⟨?_, h2, h3⟩
      rw [contents_empty hz]
      rfl
    · obtain ⟨h1, h2, h3⟩ := popR_ok (A := UOp) hInv hz
      rcases hpr : popR RC r with ⟨o, r2⟩
      rw [hpr] at h1 h2 h3
      simp only at h1 h2 h3
      subst h1
      simp only [processBufferF, hpr]
      have hlen2 : cnt RC r2.tail r2.head < n := by
        have hl1 := contents_length RC r
        have hl2 := contents_length RC r2
        rw [h2] at hl1
        simp at hl1
        omega
      have := ih (honorStep m (r.buffer.getD r.head default)) r2 h3 hlen2
      rw [h2, List.foldl_cons]
      exact this
  
/-- C6: draining one reader's trace ring applies exactly the valid traces.
`process_buffer` pops every pending trace in FIFO order and folds them
into the map: a popped trace `(idx, g)` causes `move_to_front idx` if and
only if `is_valid_gen` holds for it against the map state at that moment
(slot still Occupied with generation `g`); an invalid trace leaves the map
(slots and recency list) untouched.  Afterwards the ring is empty. -/
theorem claimC6_drain_validity (RC : Nat) (m : MapState K V) (r : SpscRing UOp)
    (hInv : RingInv RC r) :
    (processBufferF RC RC m r).1 = (ringContents RC r).foldl honorStep m ∧
    ringContents RC (processBufferF RC RC m r).2 = [] := by
  have h0 : 0 < RC := by
    have := hInv.2.1
    omega
  obtain ⟨a, b, c⟩ := processBuffer_drain RC m r hInv (cnt_lt RC _ _ h0)
  exact ⟨a, b⟩

/-- Closed witness for C6: a ring holding one valid and one stale trace
against a two-slot map drains to exactly one splice. -/
theorem claimC6_drain_validity_witness :
    RingInv 4 (pushR 4 (pushR 4 (initRing UOp 4) ⟨0, 2⟩).2 ⟨1, 7⟩).2 ∧
    (processBufferF 4 4 (emplaceAt (initMap 2 : MapState Nat Nat) 0 9 42)
        (pushR 4 (pushR 4 (initRing UOp 4) ⟨0, 2⟩).2 ⟨1, 7⟩).2).1 =
      (ringContents 4 (pushR 4 (pushR 4 (initRing UOp 4) ⟨0, 2⟩).2 ⟨1, 7⟩).2).foldl
        honorStep (emplaceAt (initMap 2 : MapState Nat Nat) 0 9 42) :=
  ⟨by decide,
    (claimC6_drain_validity 4 (emplaceAt (initMap 2 : MapState Nat Nat) 0 9 42)
      (pushR 4 (pushR 4 (initRing UOp 4) ⟨0, 2⟩).2 ⟨1, 7⟩).2 (by decide)).1⟩

end LRUModel

namespace LRUModel

/-- The fold of `get_min_active` computes either its starting accumulator
or some nonzero list element, never exceeds the accumulator, and is a
lower bound of all nonzero elements. -/
theorem minFold_spec (l : List Nat) (a : Nat) :
    (l.foldl (fun acc x => if x ≠ 0 ∧ x < acc then x else acc) a = a ∨
      ∃ x ∈ l, x ≠ 0 ∧ l.foldl (fun acc x => if x ≠ 0 ∧ x < acc then x else acc) a = x) ∧
    l.foldl (fun acc x => if x ≠ 0 ∧ x < acc then x else acc) a ≤ a ∧
    (∀ x ∈ l, x ≠ 0 → l.foldl (fun acc x => if x ≠ 0 ∧ x < acc then x else acc) a ≤ x) := by
  induction l generalizing a with
  | nil => exact ⟨Or.inl rfl, Nat.le_refl a, by intro x hx; exact absurd hx (by simp)⟩
  | cons y t ih =>
    simp only [List.foldl_cons]
    obtain ⟨ih1, ih2, ih3⟩ := ih (if y ≠ 0 ∧ y < a then y else a)
    have hstep : (if y ≠ 0 ∧ y < a then y else a) ≤ a := by
      split_ifs with hc
      · omega
      · exact Nat.le_refl a
    refine ⟨?_, Nat.le_trans ih2 hstep, ?_⟩
    · rcases ih1 with h | ⟨x, hx, hx0, hres⟩
      · rw [h]
        split_ifs with hc
        · exact Or.inr ⟨y, by simp, hc.1, rfl⟩
        · exact Or.inl rfl
      · exact Or.inr ⟨x, by simp [hx], hx0, hres⟩
    · intro x hx hx0
      rcases List.mem_cons.mp hx with hxy | hxt
      · subst hxy
        refine Nat.le_trans ih2 ?_
        split_ifs with hc
        · exact Nat.le_refl x
        · simp only [not_and, not_lt] at hc
          exact hc hx0
      · exact ih3 x hxt hx0

/-- When every registry entry is zero, the fold returns its accumulator. -/
theorem minFold_all_zero (l : List Nat) (a : Nat) (h : ∀ x ∈ l, x = 0) :
    l.foldl (fun acc x => if x ≠ 0 ∧ x < acc then x else acc) a = a := by
  induction l generalizing a with
  | nil => rfl
  | cons y t ih =>
    have hy : y = 0 := h y (by simp)
    simp only [List.foldl_cons, hy]
    rw [if_neg (by simp)]
    exact ih a (fun x hx => h x (by simp [hx]))

/-- C8: for every epoch-manager state in which each nonzero per-thread
entry is at most the current global epoch (as holds for every state whose
entries were stamped by `enter_epoch` while the global epoch was at or
above them), `get_min_active` returns the current global epoch when every
entry is zero, and otherwise returns the smallest nonzero entry: it is
itself a nonzero entry and a lower bound of all nonzero entries. -/
theorem claimC8_min_active (e : EpochMgr) (hle : ∀ x ∈ e.threads, x ≤ e.global) :
    ((∀ x ∈ e.threads, x = 0) → getMinActive e = e.global) ∧
    ((∃ x ∈ e.threads, x ≠ 0) →
      (∃ x ∈ e.threads, x ≠ 0 ∧ getMinActive e = x) ∧
      ∀ x ∈ e.threads, x ≠ 0 → getMinActive e ≤ x) := by
  constructor
  · intro hz
    exact minFold_all_zero e.threads e.global hz
  · rintro ⟨x0, hx0m, hx00⟩
    obtain ⟨h1, h2, h3⟩ := minFold_spec e.threads e.global
    refine ⟨?_, h3⟩
    rcases h1 with h | h
    · refine ⟨x0, hx0m, hx00, ?_⟩
      have hub := h3 x0 hx0m hx00
      have := hle x0 hx0m
      unfold getMinActive
      omega
    · exact h

/-- Closed witness for C8 at a concrete registry: global epoch 5, entries
0, 3 and 4 — the minimum active epoch is a nonzero entry bounded by all. -/
theorem claimC8_min_active_witness :
    (∀ x ∈ (EpochMgr.mk 5 [0, 3, 4]).threads, x ≤ (EpochMgr.mk 5 [0, 3, 4]).global) ∧
    ((∃ x ∈ (EpochMgr.mk 5 [0, 3, 4]).threads, x ≠ 0) →
      (∃ x ∈ (EpochMgr.mk 5 [0, 3, 4]).threads, x ≠ 0 ∧
        getMinActive (EpochMgr.mk 5 [0, 3, 4]) = x) ∧
      ∀ x ∈ (EpochMgr.mk 5 [0, 3, 4]).threads, x ≠ 0 →
        getMinActive (EpochMgr.mk 5 [0, 3, 4]) ≤ x) :=
  ⟨by decide, (claimC8_min_active (EpochMgr.mk 5 [0, 3, 4]) (by decide)).2⟩

end LRUModel

namespace LRUModel

variable {K V : Type} [DecidableEq K] [DecidableEq V] [Inhabited K]

/-- Frame behaviour of `mark_access`: only the calling thread's ring and
dirty bit can change. -/
theorem markAccess_frame (RC : Nat) (s : Shard K V) (tid i g : Nat)
    (htid : tid < s.buffers.length) (hInv : RingInv RC (s.buffers.getD tid default)) :
    (markAccess RC s tid i g).col = s.col ∧
    (markAccess RC s tid i g).retired = s.retired ∧
    (markAccess RC s tid i g).epochs = s.epochs ∧
    (∀ t, t ≠ tid →
      (markAccess RC s tid i g).buffers.getD t default = s.buffers.getD t default) ∧
    ((markAccess RC s tid i g).dirty = s.dirty ∨
      (markAccess RC s tid i g).dirty = Nat.lor s.dirty (2 ^ tid)) ∧
    (ringContents RC ((markAccess RC s tid i g).buffers.getD tid default) =
        ringContents RC (s.buffers.getD tid default) ∨
      ∃ op, ringContents RC ((markAccess RC s tid i g).buffers.getD tid default) =
        ringContents RC (s.buffers.getD tid default) ++ [op]) := by
  unfold markAccess
  rcases hpush : pushR RC (s.buffers.getD tid default) ⟨i, g⟩ with ⟨ok, r2⟩
  rcases ok with _ | _
  · dsimp only
    refine ⟨rfl, rfl, rfl, ?_, Or.inl rfl, ?_⟩
    · intro t ht
      exact getD_set_ne s.buffers tid t r2 default (fun hEq => ht hEq.symm)
    · left
      show ringContents RC ((s.buffers.set tid r2).getD tid default) =
        ringContents RC (s.buffers.getD tid default)
      rw [getD_set_self s.buffers tid r2 default htid]
      by_cases hf : cnt RC (s.buffers.getD tid default).tail
          (s.buffers.getD tid default).head = RC - 1
      · have hspec := pushR_full hInv ⟨i, g⟩ hf
        rw [hpush] at hspec
        exact hspec.2.1
      · have hspec := pushR_ok hInv ⟨i, g⟩ hf
        rw [hpush] at hspec
        exact absurd hspec.1 (by simp)
  · dsimp only
    refine ⟨rfl, rfl, rfl, ?_, Or.inr rfl, ?_⟩
    · intro t ht
      exact getD_set_ne s.buffers tid t r2 default (fun hEq => ht hEq.symm)
    · right
      show ∃ op, ringContents RC ((s.buffers.set tid r2).getD tid default) =
        ringContents RC (s.buffers.getD tid default) ++ [op]
      rw [getD_set_self s.buffers tid r2 default htid]
      by_cases hf : cnt RC (s.buffers.getD tid default).tail
          (s.buffers.getD tid default).head = RC - 1
      · have hspec := pushR_full hInv ⟨i, g⟩ hf
        rw [hpush] at hspec
        exact absurd hspec.1 (by simp)
      · have hspec := pushR_ok hInv ⟨i, g⟩ hf
        rw [hpush] at hspec
        exact ⟨_, hspec.2.1⟩

/-- C10: `get` never touches the flat map — no slot field, list head/tail
or size changes — nor the retirement list or the global epoch.  Its only
state effects are on the calling thread: its epoch-registry entry is
stamped on entry and cleared on exit (net effect: set to zero), its dirty
bit may be set, and its trace ring either is unchanged (miss, or a full
ring dropping the hint — possibly refreshing the producer's cached index,
invisible at the queue abstraction) or gains exactly one trace at the
back.  All other threads' rings are untouched. -/
theorem claimC10_get_frame (Cap : Nat) (hK : K → Nat) (RC : Nat) (s : Shard K V)
    (tid : Nat) (k : K) (htid : tid < s.buffers.length)
    (hInv : RingInv RC (s.buffers.getD tid default)) :
    (lv5Get Cap hK RC s tid k).2.col = s.col ∧
    (lv5Get Cap hK RC s tid k).2.retired = s.retired ∧
    (lv5Get Cap hK RC s tid k).2.epochs.global = s.epochs.global ∧
    (lv5Get Cap hK RC s tid k).2.epochs.threads = s.epochs.threads.set tid 0 ∧
    (∀ t, t ≠ tid →
      (lv5Get Cap hK RC s tid k).2.buffers.getD t default = s.buffers.getD t default) ∧
    ((lv5Get Cap hK RC s tid k).2.dirty = s.dirty ∨
      (lv5Get Cap hK RC s tid k).2.dirty = Nat.lor s.dirty (2 ^ tid)) ∧
    (ringContents RC ((lv5Get Cap hK RC s tid k).2.buffers.getD tid default) =
        ringContents RC (s.buffers.getD tid default) ∨
      ∃ op, ringContents RC ((lv5Get Cap hK RC s tid k).2.buffers.getD tid default) =
        ringContents RC (s.buffers.getD tid default) ++ [op]) := by
  rcases hres : (getLocklessF hK (2 * Cap) s.col k).ptr with _ | w
  · have hval : (lv5Get Cap hK RC s tid k).2 =
        { s with epochs := leaveEpoch (enterEpoch s.epochs tid) tid } := by
      unfold lv5Get
      dsimp only
      rw [hres]
    rw [hval]
    exact ⟨rfl, rfl, rfl, List.set_set .., fun t ht => rfl, Or.inl rfl, Or.inl rfl⟩
  · have hval : (lv5Get Cap hK RC s tid k).2 =
        { markAccess RC { s with epochs := enterEpoch s.epochs tid } tid
            (getLocklessF hK (2 * Cap) s.col k).idx
            (getLocklessF hK (2 * Cap) s.col k).gen with
          epochs := leaveEpoch (markAccess RC { s with epochs := enterEpoch s.epochs tid } tid
            (getLocklessF hK (2 * Cap) s.col k).idx
            (getLocklessF hK (2 * Cap) s.col k).gen).epochs tid } := by
      unfold lv5Get
      dsimp only
      rw [hres]
    obtain ⟨hc, hr, he, hb, hd, hq⟩ := markAccess_frame RC
      { s with epochs := enterEpoch s.epochs tid } tid
      (getLocklessF hK (2 * Cap) s.col k).idx
      (getLocklessF hK (2 * Cap) s.col k).gen htid hInv
    rw [hval]
    refine ⟨hc, hr, ?_, ?_, hb, hd, hq⟩
    · show (markAccess RC { s with epochs := enterEpoch s.epochs tid } tid
          (getLocklessF hK (2 * Cap) s.col k).idx
          (getLocklessF hK (2 * Cap) s.col k).gen).epochs.global = s.epochs.global
      rw [he]
      rfl
    · show ((markAccess RC { s with epochs := enterEpoch s.epochs tid } tid
          (getLocklessF hK (2 * Cap) s.col k).idx
          (getLocklessF hK (2 * Cap) s.col k).gen).epochs.threads).set tid 0 =
        s.epochs.threads.set tid 0
      rw [he]
      exact List.set_set ..

/-- Closed witness for C10: a concrete one-entry shard observed by a
reader. -/
theorem claimC10_get_frame_witness :
    (0 < (initShard Nat Nat 4 1 2).buffers.length ∧
      RingInv 2 ((initShard Nat Nat 4 1 2).buffers.getD 0 default)) ∧
    (lv5Get 4 id 2 (initShard Nat Nat 4 1 2) 0 3).2.col = (initShard Nat Nat 4 1 2).col :=
  ⟨⟨by decide, by decide⟩,
    (claimC10_get_frame 4 id 2 (initShard Nat Nat 4 1 2) 0 3 (by decide) (by decide)).1⟩

end LRUModel

namespace LRUModel

variable {K V : Type} [DecidableEq K] [DecidableEq V] [Inhabited K]

theorem list_set_oob {α : Type} : ∀ (l : List α) (n : Nat) (a : α), l.length ≤ n →
    l.set n a = l
  | [], _, _, _ => rfl
  | x :: l, 0, a, h => absurd h (by simp)
  | x :: l, n+1, a, h => by
    simp only [List.set]
    rw [list_set_oob l n a (by simpa using h)]

theorem slotAt_setSlot_self (m : MapState K V) (i : Nat) (sl : Slot K V)
    (him : i < m.slots.length) : slotAt (setSlot m i sl) i = sl := by
  unfold slotAt setSlot
  exact getD_set_self m.slots i sl default him

theorem slotAt_setSlot_ne (m : MapState K V) (i j : Nat) (sl : Slot K V)
    (h : j ≠ i) : slotAt (setSlot m i sl) j = slotAt m j := by
  unfold slotAt setSlot
  exact getD_set_ne m.slots i j sl default (fun hEq => h hEq.symm)

theorem setSlot_oob (m : MapState K V) (i : Nat) (sl : Slot K V)
    (h : m.slots.length ≤ i) : setSlot m i sl = m := by
  unfold setSlot
  rw [list_set_oob m.slots i sl h]

/-- The content of a slot as the probe walk and the sequence lock see it:
state, key, generation and value (the intrusive links are excluded). -/
def fieldsAt (m : MapState K V) (j : Nat) : SlotState × K × Nat × Option V :=
  ((slotAt m j).state, (slotAt m j).key, (slotAt m j).gen, (slotAt m j).value)

theorem fieldsAt_setSlot_pres (m : MapState K V) (i : Nat) (sl : Slot K V)
    (hs : sl.state = (slotAt m i).state) (hk : sl.key = (slotAt m i).key)
    (hg : sl.gen = (slotAt m i).gen) (hv : sl.value = (slotAt m i).value)
    (j : Nat) : fieldsAt (setSlot m i sl) j = fieldsAt m j := by
  by_cases hj : j = i
  · subst hj
    by_cases him : j < m.slots.length
    · unfold fieldsAt
      rw [slotAt_setSlot_self m j sl him, hs, hk, hg, hv]
    · rw [setSlot_oob m j sl (by omega)]
  · unfold fieldsAt
    rw [slotAt_setSlot_ne m i j sl hj]

theorem fieldsAt_setSlot_links (m : MapState K V) (i : Nat) (nx pv : Option Nat)
    (j : Nat) :
    fieldsAt (setSlot m i { slotAt m i with next := nx, prev := pv }) j = fieldsAt m j :=
  fieldsAt_setSlot_pres m i { slotAt m i with next := nx, prev := pv } rfl rfl rfl rfl j

theorem fieldsAt_setSlot_prev (m : MapState K V) (i : Nat) (pv : Option Nat) (j : Nat) :
    fieldsAt (setSlot m i { slotAt m i with prev := pv }) j = fieldsAt m j :=
  fieldsAt_setSlot_pres m i { slotAt m i with prev := pv } rfl rfl rfl rfl j

theorem fieldsAt_setSlot_next (m : MapState K V) (i : Nat) (nx : Option Nat) (j : Nat) :
    fieldsAt (setSlot m i { slotAt m i with next := nx }) j = fieldsAt m j :=
  fieldsAt_setSlot_pres m i { slotAt m i with next := nx } rfl rfl rfl rfl j

theorem fieldsAt_ext {m m2 : MapState K V} (h : m2.slots = m.slots) (j : Nat) :
    fieldsAt m2 j = fieldsAt m j := by
  unfold fieldsAt slotAt
  rw [h]

theorem fieldsAt_detach (m : MapState K V) (i j : Nat) :
    fieldsAt (detach m i) j = fieldsAt m j := by
  unfold detach
  rcases hn : (slotAt m i).next with _ | ni <;> rcases hp : (slotAt m i).prev with _ | pi <;>
    dsimp only <;> rw [fieldsAt_setSlot_links]
  · exact fieldsAt_ext rfl j
  · exact Eq.trans (fieldsAt_setSlot_next { m with tail := some pi } pi none j)
      (fieldsAt_ext rfl j)
  · exact Eq.trans (fieldsAt_ext rfl j) (fieldsAt_setSlot_prev m ni none j)
  · exact Eq.trans
      (fieldsAt_setSlot_next (setSlot m ni { slotAt m ni with prev := some pi }) pi
        (some ni) j)
      (fieldsAt_setSlot_prev m ni (some pi) j)

theorem size_detach (m : MapState K V) (i : Nat) : (detach m i).size = m.size := by
  unfold detach
  rcases hn : (slotAt m i).next with _ | ni <;> rcases hp : (slotAt m i).prev with _ | pi <;>
    rfl

theorem fieldsAt_pushFront (m : MapState K V) (i j : Nat) :
    fieldsAt (pushFront m i) j = fieldsAt m j := by
  unfold pushFront
  rcases hh : m.head with _ | hi <;> dsimp only <;> split_ifs <;>
    refine Eq.trans (fieldsAt_ext rfl j) ?_
  · exact fieldsAt_setSlot_links m i none none j
  · exact fieldsAt_setSlot_links m i none none j
  · exact Eq.trans
      (fieldsAt_setSlot_prev (setSlot m i { slotAt m i with next := some hi, prev := none })
        hi (some i) j)
      (fieldsAt_setSlot_links m i (some hi) none j)
  · exact Eq.trans
      (fieldsAt_setSlot_prev (setSlot m i { slotAt m i with next := some hi, prev := none })
        hi (some i) j)
      (fieldsAt_setSlot_links m i (some hi) none j)

theorem size_pushFront (m : MapState K V) (i : Nat) : (pushFront m i).size = m.size := by
  unfold pushFront
  rcases hh : m.head with _ | hi <;> dsimp only <;> split_ifs <;> rfl

theorem fieldsAt_mtf (m : MapState K V) (i j : Nat) :
    fieldsAt (moveToFront m i) j = fieldsAt m j := by
  unfold moveToFront
  split_ifs with hc
  · rfl
  · exact Eq.trans (fieldsAt_pushFront (detach m i) i j) (fieldsAt_detach m i j)

theorem size_mtf (m : MapState K V) (i : Nat) : (moveToFront m i).size = m.size := by
  unfold moveToFront
  split_ifs with hc
  · rfl
  · rw [size_pushFront, size_detach]

theorem head_mtf (m : MapState K V) (i : Nat) : (moveToFront m i).head = some i := by
  unfold moveToFront
  split_ifs with hc
  · exact hc
  · unfold pushFront
    rcases hh : (detach m i).head with _ | hi <;> dsimp only <;> split_ifs <;> rfl

end LRUModel

namespace LRUModel

variable {K V : Type} [DecidableEq K] [DecidableEq V] [Inhabited K]

theorem genAt_mtf (m : MapState K V) (i j : Nat) :
    genAt (moveToFront m i) j = genAt m j :=
  congrArg (fun q => q.2.2.1) (fieldsAt_mtf m i j)

theorem u32_add_one_one (g : Nat) : u32 (u32 (g + 1) + 1) = u32 (g + 2) := by
  unfold u32
  rw [Nat.mod_add_mod]

theorem u32_parity (g : Nat) : u32 (g + 2) % 2 = g % 2 := by
  unfold u32
  rw [Nat.mod_mod_of_dvd _ (by norm_num)]
  omega

theorem u32_strict (g : Nat) (h : g + 2 < 4294967296) : g < u32 (g + 2) := by
  unfold u32
  rw [Nat.mod_eq_of_lt h]
  omega

theorem genAt_updateSlot_self (m : MapState K V) (i : Nat) (v : V)
    (him : i < m.slots.length) :
    genAt (updateSlot m i v).1 i = u32 (genAt m i + 2) := by
  unfold updateSlot genAt
  dsimp only
  rw [slotAt_setSlot_self m i _ him]

theorem fieldsAt_updateSlot_ne (m : MapState K V) (i j : Nat) (v : V) (h : j ≠ i) :
    fieldsAt (updateSlot m i v).1 j = fieldsAt m j := by
  unfold updateSlot fieldsAt
  dsimp only
  rw [slotAt_setSlot_ne m i j _ h]

theorem genAt_emplaceAt_self (m : MapState K V) (i : Nat) (k : K) (v : V)
    (him : i < m.slots.length) :
    genAt (emplaceAt m i k v) i = u32 (genAt m i + 2) := by
  unfold emplaceAt genAt
  dsimp only
  show (slotAt (setSlot m i _) i).gen = _
  rw [slotAt_setSlot_self m i _ him]
  exact u32_add_one_one (slotAt m i).gen

theorem fieldsAt_setSlot_ne (m : MapState K V) (i j : Nat) (sl : Slot K V) (h : j ≠ i) :
    fieldsAt (setSlot m i sl) j = fieldsAt m j := by
  unfold fieldsAt
  rw [slotAt_setSlot_ne m i j sl h]

theorem fieldsAt_emplaceAt_ne (m : MapState K V) (i j : Nat) (k : K) (v : V) (h : j ≠ i) :
    fieldsAt (emplaceAt m i k v) j = fieldsAt m j := by
  unfold emplaceAt
  dsimp only
  exact Eq.trans (fieldsAt_ext rfl j) (fieldsAt_setSlot_ne m i j _ h)

theorem length_setSlot (m : MapState K V) (i : Nat) (sl : Slot K V) :
    (setSlot m i sl).slots.length = m.slots.length := by
  simp [setSlot]

theorem length_detach (m : MapState K V) (i : Nat) :
    (detach m i).slots.length = m.slots.length := by
  unfold detach
  rcases hn : (slotAt m i).next with _ | ni <;> rcases hp : (slotAt m i).prev with _ | pi <;>
    simp [setSlot]

theorem length_pushFront (m : MapState K V) (i : Nat) :
    (pushFront m i).slots.length = m.slots.length := by
  unfold pushFront
  rcases hh : m.head with _ | hi <;> dsimp only <;> split_ifs <;> simp [setSlot]

theorem length_mtf (m : MapState K V) (i : Nat) :
    (moveToFront m i).slots.length = m.slots.length := by
  unfold moveToFront
  split_ifs with hc
  · rfl
  · rw [length_pushFront, length_detach]

theorem genAt_detach (m : MapState K V) (i j : Nat) :
    genAt (detach m i) j = genAt m j :=
  congrArg (fun q => q.2.2.1) (fieldsAt_detach m i j)

theorem genAt_eraseIndex_self (m : MapState K V) (i : Nat)
    (him : i < m.slots.length) (hocc : stateAt m i = SlotState.Occupied) :
    genAt (eraseIndex m i) i = u32 (genAt m i + 2) := by
  unfold eraseIndex
  rw [if_neg (by simp [hocc])]
  dsimp only
  show genAt { setSlot (detach m i) i _ with size := _ } i = _
  unfold genAt
  show (slotAt (setSlot (detach m i) i _) i).gen = _
  rw [slotAt_setSlot_self (detach m i) i _ (by rw [length_detach]; exact him)]
  dsimp only
  rw [u32_add_one_one]
  rw [show (slotAt (detach m i) i).gen = genAt (detach m i) i from rfl, genAt_detach]
  rfl

theorem genAt_eraseIndex (m : MapState K V) (i j : Nat) :
    genAt (eraseIndex m i) j = genAt m j ∨
      genAt (eraseIndex m i) j = u32 (genAt m i + 2) ∧ j = i := by
  unfold eraseIndex
  split_ifs with hc
  · exact Or.inl rfl
  · by_cases hj : j = i
    · subst hj
      by_cases him : j < m.slots.length
      · right
        refine ⟨?_, rfl⟩
        show genAt { setSlot (detach m j) j _ with size := _ } j = _
        unfold genAt
        show (slotAt (setSlot (detach m j) j _) j).gen = _
        rw [slotAt_setSlot_self (detach m j) j _ (by rw [length_detach]; exact him)]
        dsimp only
        rw [u32_add_one_one]
        rw [show (slotAt (detach m j) j).gen = genAt (detach m j) j from rfl, genAt_detach]
        rfl
      · left
        show genAt { setSlot (detach m j) j _ with size := _ } j = _
        unfold genAt
        show (slotAt (setSlot (detach m j) j _) j).gen = _
        rw [setSlot_oob (detach m j) j _ (by rw [length_detach]; omega)]
        exact genAt_detach m j j
    · left
      show genAt { setSlot (detach m i) i _ with size := _ } j = _
      unfold genAt
      show (slotAt (setSlot (detach m i) i _) j).gen = _
      rw [slotAt_setSlot_ne (detach m i) i j _ hj]
      exact genAt_detach m i j

end LRUModel

namespace LRUModel

variable {K V : Type} [DecidableEq K] [DecidableEq V] [Inhabited K]

theorem getD_replicate {α : Type} : ∀ (n j : Nat) (d : α), (List.replicate n d).getD j d = d
  | 0, _, _ => rfl
  | _+1, 0, _ => rfl
  | n+1, j+1, d => getD_replicate n j d

theorem genAt_initMap (TS j : Nat) : genAt (initMap TS : MapState K V) j = 0 := by
  unfold genAt initMap slotAt
  dsimp only
  rw [getD_replicate]
  rfl

theorem evenAll_init (TS : Nat) : EvenAll (initMap TS : MapState K V) := by
  intro j
  rw [genAt_initMap]

theorem evenAll_mtf {m : MapState K V} (i : Nat) (h : EvenAll m) :
    EvenAll (moveToFront m i) := by
  intro j
  rw [genAt_mtf]
  exact h j

theorem evenAll_updateSlot {m : MapState K V} (i : Nat) (v : V) (h : EvenAll m) :
    EvenAll (updateSlot m i v).1 := by
  intro j
  by_cases hj : j = i
  · subst hj
    by_cases him : j < m.slots.length
    · rw [genAt_updateSlot_self m j v him, u32_parity]
      exact h j
    · have hoob : (updateSlot m j v).1 = m := by
        unfold updateSlot
        dsimp only
        exact setSlot_oob m j _ (by omega)
      rw [hoob]
      exact h j
  · have hg : genAt (updateSlot m i v).1 j = genAt m j :=
      congrArg (fun q => q.2.2.1) (fieldsAt_updateSlot_ne m i j v hj)
    rw [hg]
    exact h j

theorem evenAll_emplaceAt {m : MapState K V} (i : Nat) (k : K) (v : V) (h : EvenAll m) :
    EvenAll (emplaceAt m i k v) := by
  intro j
  by_cases hj : j = i
  · subst hj
    by_cases him : j < m.slots.length
    · rw [genAt_emplaceAt_self m j k v him, u32_parity]
      exact h j
    · have hoob : (emplaceAt m j k v).slots = m.slots := by
        unfold emplaceAt
        dsimp only
        rw [setSlot_oob m j _ (by omega)]
      have hg : genAt (emplaceAt m j k v) j = genAt m j :=
        congrArg (fun q => q.2.2.1) ((fieldsAt_ext hoob j :
          fieldsAt (emplaceAt m j k v) j = fieldsAt m j))
      rw [hg]
      exact h j
  · have hg : genAt (emplaceAt m i k v) j = genAt m j :=
      congrArg (fun q => q.2.2.1) (fieldsAt_emplaceAt_ne m i j k v hj)
    rw [hg]
    exact h j

theorem evenAll_eraseIndex {m : MapState K V} (i : Nat) (h : EvenAll m) :
    EvenAll (eraseIndex m i) := by
  intro j
  rcases genAt_eraseIndex m i j with hg | ⟨hg, _⟩
  · rw [hg]
    exact h j
  · rw [hg, u32_parity]
    exact h i

theorem evenAll_honorStep {m : MapState K V} (op : UOp) (h : EvenAll m) :
    EvenAll (honorStep m op) := by
  unfold honorStep
  split_ifs
  · exact evenAll_mtf _ h
  · exact h

theorem evenAll_processBufferF {RC : Nat} :
    ∀ (fuel : Nat) (m : MapState K V) (r : SpscRing UOp), EvenAll m →
      EvenAll (processBufferF RC fuel m r).1
  | 0, _, _, h => h
  | fuel+1, m, r, h => by
    rcases hpr : popR RC r with ⟨o, r2⟩
    rcases o with _ | op
    · simp only [processBufferF, hpr]
      exact h
    · simp only [processBufferF, hpr]
      exact evenAll_processBufferF fuel _ r2 (evenAll_honorStep op h)

theorem evenAll_processShardBuf {RC : Nat} {s : Shard K V} (i : Nat)
    (h : EvenAll s.col) : EvenAll (processShardBuf RC s i).col := by
  unfold processShardBuf
  exact evenAll_processBufferF RC s.col _ h

theorem evenAll_foldBits {RC : Nat} :
    ∀ (l : List Nat) (s : Shard K V), EvenAll s.col →
      EvenAll ((l.foldl (processShardBuf RC) s)).col
  | [], _, h => h
  | i :: rest, s, h => by
    rw [List.foldl_cons]
    exact evenAll_foldBits rest _ (evenAll_processShardBuf i h)

theorem evenAll_applyUpdates {RC : Nat} {s : Shard K V} (h : EvenAll s.col) :
    EvenAll (applyUpdates RC s).col := by
  unfold applyUpdates
  dsimp only
  split_ifs with hc
  · exact evenAll_foldBits (bitsAsc 64 s.dirty) _ h
  · exact evenAll_foldBits (bitsAsc 64 s.dirty) _ h

theorem evenAll_commitPut {Cap : Nat} {hK : K → Nat} {s s2 : Shard K V} {k : K} {v : V}
    (h : commitPut Cap hK s k v = some s2) (he : EvenAll s.col) : EvenAll s2.col := by
  unfold commitPut at h
  rcases hlk : lookupD hK (2 * Cap) s.col k with _ | res
  · rw [hlk] at h
    exact absurd h (by simp)
  · rw [hlk] at h
    dsimp only at h
    split_ifs at h with hp hcap
    · have hs2 := Option.some.inj h
      subst hs2
      exact evenAll_mtf _ (evenAll_updateSlot _ v he)
    · rcases hta : s.col.tail with _ | te
      · rw [hta] at h
        exact absurd h (by simp)
      · rw [hta] at h
        dsimp only at h
        rcases has : assignF hK (2 * Cap) (eraseIndex s.col te) k with _ | t
        · rw [has] at h
          exact absurd h (by simp)
        · rw [has] at h
          have hs2 := Option.some.inj h
          subst hs2
          exact evenAll_mtf _ (evenAll_emplaceAt _ k v (evenAll_eraseIndex te he))
    · have hs2 := Option.some.inj h
      subst hs2
      exact evenAll_mtf _ (evenAll_emplaceAt _ k v he)

theorem markAccess_col {RC : Nat} (s : Shard K V) (tid i g : Nat) :
    (markAccess RC s tid i g).col = s.col := by
  unfold markAccess
  rcases hpr : pushR RC (s.buffers.getD tid default) ⟨i, g⟩ with ⟨ok, r2⟩
  rcases ok with _ | _ <;> rfl

theorem lv5Get_col {Cap : Nat} {hK : K → Nat} {RC : Nat} (s : Shard K V) (tid : Nat)
    (k : K) : (lv5Get Cap hK RC s tid k).2.col = s.col := by
  unfold lv5Get
  dsimp only
  rcases hres : (getLocklessF hK (2 * Cap) s.col k).ptr with _ | w
  · rfl
  · dsimp only
    exact markAccess_col _ tid _ _

theorem evenAll_put {Cap : Nat} {hK : K → Nat} {RC : Nat} {s s2 : Shard K V} {k : K}
    {v : V} (h : lv5Put Cap hK RC s k v = some s2) (he : EvenAll s.col) :
    EvenAll s2.col := by
  unfold lv5Put at h
  rcases hlk : lookupD hK (2 * Cap) s.col k with _ | res
  · rw [hlk] at h
    exact absurd h (by simp)
  · rw [hlk] at h
    dsimp only at h
    by_cases hq : res.ptr = some v
    · rw [if_pos hq] at h
      have hs2 := Option.some.inj h
      subst hs2
      exact evenAll_mtf _ he
    · rw [if_neg hq] at h
      set smid := (if ({ s with epochs := bumpEpoch s.epochs } : Shard K V).dirty ≠ 0 then
          applyUpdates RC { s with epochs := bumpEpoch s.epochs }
        else { s with epochs := bumpEpoch s.epochs }) with hsmid
      rcases hcm : commitPut Cap hK smid k v with _ | s3
      · rw [hcm] at h
        exact absurd h (by simp)
      · rw [hcm] at h
        have hs2 := Option.some.inj h
        subst hs2
        have hmidcol : EvenAll smid.col := by
          rw [hsmid]
          split_ifs with hd
          · exact evenAll_applyUpdates he
          · exact he
        have h3 := evenAll_commitPut hcm hmidcol
        split_ifs with hr
        · exact h3
        · exact h3

theorem evenAll_runOps {Cap : Nat} {hK : K → Nat} {RC : Nat} :
    ∀ (ops : List (CacheOp K V)) (s s2 : Shard K V),
      runOps Cap hK RC s ops = some s2 → EvenAll s.col → EvenAll s2.col
  | [], s, s2, h, he => by
    unfold runOps at h
    exact (Option.some.inj h) ▸ he
  | op :: rest, s, s2, h, he => by
    unfold runOps at h
    rcases hro : runOp Cap hK RC s op with _ | s1
    · rw [hro] at h
      exact absurd h (by simp)
    · rw [hro] at h
      refine evenAll_runOps rest s1 s2 h ?_
      rcases op with ⟨k, v⟩ | ⟨tid, k⟩
      · unfold runOp at hro
        exact evenAll_put hro he
      · unfold runOp at hro
        have hs1 := Option.some.inj hro
        subst hs1
        rw [lv5Get_col]
        exact he

end LRUModel

namespace LRUModel

variable {K V : Type} [DecidableEq K] [DecidableEq V] [Inhabited K]

/-- C7: generation-counter discipline.  Each complete slot mutation —
`update_slot`, `emplace_at`, and `erase_index` on an Occupied slot — sets
the slot's 32-bit generation to `gen + 2` (modulo the `uint32_t`
wraparound), so starting from all-zero generations every state reachable
by `put` and `get` operations has an even generation in every slot at
quiescence, and as long as the counter does not wrap (`gen + 2 < 2^32`,
i.e. fewer than `2^31` mutations of one slot) each publication strictly
increases it. -/
theorem claimC7_gen_discipline (Cap M RC : Nat) (hK : K → Nat)
    (m : MapState K V) (i : Nat) (k : K) (v : V) (him : i < m.slots.length)
    (ops : List (CacheOp K V)) (s : Shard K V)
    (hrun : runOps Cap hK RC (initShard K V Cap M RC) ops = some s) :
    genAt (updateSlot m i v).1 i = u32 (genAt m i + 2) ∧
    genAt (emplaceAt m i k v) i = u32 (genAt m i + 2) ∧
    (stateAt m i = SlotState.Occupied → genAt (eraseIndex m i) i = u32 (genAt m i + 2)) ∧
    (genAt m i + 2 < 4294967296 →
      genAt m i < genAt (updateSlot m i v).1 i ∧
      genAt m i < genAt (emplaceAt m i k v) i ∧
      (stateAt m i = SlotState.Occupied → genAt m i < genAt (eraseIndex m i) i)) ∧
    EvenAll s.col := by
  refine ⟨genAt_updateSlot_self m i v him, genAt_emplaceAt_self m i k v him,
    fun hocc => genAt_eraseIndex_self m i him hocc, ?_, ?_⟩
  · intro hlt
    refine ⟨?_, ?_, ?_⟩
    · rw [genAt_updateSlot_self m i v him]
      exact u32_strict _ hlt
    · rw [genAt_emplaceAt_self m i k v him]
      exact u32_strict _ hlt
    · intro hocc
      rw [genAt_eraseIndex_self m i him hocc]
      exact u32_strict _ hlt
  · exact evenAll_runOps ops _ s hrun (evenAll_init (2 * Cap))

/-- Closed witness for C7 at a concrete occupied slot and a concrete
two-operation run. -/
theorem claimC7_gen_discipline_witness :
    1 < (emplaceAt (initMap 8 : MapState Nat Nat) 1 5 7).slots.length ∧
    runOps 4 id 1 (initShard Nat Nat 4 1 1) [CacheOp.put 1 10, CacheOp.get 0 1] =
      some ((runOps 4 id 1 (initShard Nat Nat 4 1 1)
        [CacheOp.put 1 10, CacheOp.get 0 1]).getD (initShard Nat Nat 4 1 1)) ∧
    (genAt (updateSlot (emplaceAt (initMap 8 : MapState Nat Nat) 1 5 7) 1 9).1 1 =
        u32 (genAt (emplaceAt (initMap 8 : MapState Nat Nat) 1 5 7) 1 + 2) ∧
      genAt (emplaceAt (emplaceAt (initMap 8 : MapState Nat Nat) 1 5 7) 1 5 9) 1 =
        u32 (genAt (emplaceAt (initMap 8 : MapState Nat Nat) 1 5 7) 1 + 2) ∧
      (stateAt (emplaceAt (initMap 8 : MapState Nat Nat) 1 5 7) 1 = SlotState.Occupied →
        genAt (eraseIndex (emplaceAt (initMap 8 : MapState Nat Nat) 1 5 7) 1) 1 =
          u32 (genAt (emplaceAt (initMap 8 : MapState Nat Nat) 1 5 7) 1 + 2)) ∧
      (genAt (emplaceAt (initMap 8 : MapState Nat Nat) 1 5 7) 1 + 2 < 4294967296 →
        genAt (emplaceAt (initMap 8 : MapState Nat Nat) 1 5 7) 1 <
          genAt (updateSlot (emplaceAt (initMap 8 : MapState Nat Nat) 1 5 7) 1 9).1 1 ∧
        genAt (emplaceAt (initMap 8 : MapState Nat Nat) 1 5 7) 1 <
          genAt (emplaceAt (emplaceAt (initMap 8 : MapState Nat Nat) 1 5 7) 1 5 9) 1 ∧
        (stateAt (emplaceAt (initMap 8 : MapState Nat Nat) 1 5 7) 1 = SlotState.Occupied →
          genAt (emplaceAt (initMap 8 : MapState Nat Nat) 1 5 7) 1 <
            genAt (eraseIndex (emplaceAt (initMap 8 : MapState Nat Nat) 1 5 7) 1) 1)) ∧
      EvenAll ((runOps 4 id 1 (initShard Nat Nat 4 1 1)
        [CacheOp.put 1 10, CacheOp.get 0 1]).getD (initShard Nat Nat 4 1 1)).col) :=
  ⟨by decide, by decide,
    claimC7_gen_discipline 4 1 1 id (emplaceAt (initMap 8 : MapState Nat Nat) 1 5 7) 1 5 9
      (by decide) [CacheOp.put 1 10, CacheOp.get 0 1]
      ((runOps 4 id 1 (initShard Nat Nat 4 1 1)
        [CacheOp.put 1 10, CacheOp.get 0 1]).getD (initShard Nat Nat 4 1 1)) (by decide)⟩

end LRUModel


namespace LRUModel

variable {K V : Type} [DecidableEq K] [DecidableEq V] [Inhabited K]

theorem nextSlot_lt {TS : Nat} (i : Nat) (h : 0 < TS) : nextSlot TS i < TS :=
  Nat.mod_lt _ h

theorem hashIdx_lt {TS : Nat} (hK : K → Nat) (k : K) (h : 0 < TS) :
    hashIdx hK TS k < TS := Nat.mod_lt _ h

theorem state_occ_of_ne {s : SlotState} (h1 : s ≠ SlotState.Empty)
    (h2 : s ≠ SlotState.Deleted) : s = SlotState.Occupied := by
  cases s <;> simp_all

theorem probe_hit_spec {m : MapState K V} {k : K} {TS : Nat} {t : Nat} :
    ∀ (f i : Nat) (fd : Option Nat), i < TS →
      probeF m k TS f i fd = some (ProbeOut.hit t) →
      t < TS ∧ stateAt m t = SlotState.Occupied ∧ keyAt m t = k
  | 0, i, fd, hi, h => absurd h (by simp [probeF])
  | f+1, i, fd, hi, h => by
    have h0 : 0 < TS := by omega
    unfold probeF at h
    dsimp only at h
    by_cases h1 : (slotAt m i).state = SlotState.Empty
    · rw [if_pos h1] at h
      simp at h
    · rw [if_neg h1] at h
      by_cases h2 : (slotAt m i).state = SlotState.Deleted
      · rw [if_pos h2] at h
        exact probe_hit_spec f (nextSlot TS i) _ (nextSlot_lt i h0) h
      · rw [if_neg h2] at h
        by_cases h3 : (slotAt m i).key = k
        · rw [if_pos h3] at h
          simp only [Option.some.injEq, ProbeOut.hit.injEq] at h
          subst h
          exact ⟨hi, state_occ_of_ne h1 h2, h3⟩
        · rw [if_neg h3] at h
          exact probe_hit_spec f (nextSlot TS i) fd (nextSlot_lt i h0) h

theorem probe_miss_spec {m : MapState K V} {k : K} {TS : Nat} {t : Nat} :
    ∀ (f i : Nat) (fd : Option Nat), i < TS →
      (∀ d, fd = some d → d < TS ∧ stateAt m d = SlotState.Deleted) →
      probeF m k TS f i fd = some (ProbeOut.miss t) →
      t < TS ∧ stateAt m t ≠ SlotState.Occupied
  | 0, i, fd, hi, hfd, h => absurd h (by simp [probeF])
  | f+1, i, fd, hi, hfd, h => by
    have h0 : 0 < TS := by omega
    unfold probeF at h
    dsimp only at h
    by_cases h1 : (slotAt m i).state = SlotState.Empty
    · rw [if_pos h1] at h
      simp only [Option.some.injEq, ProbeOut.miss.injEq] at h
      subst h
      rcases hfde : fd with _ | d
      · refine ⟨hi, fun hc => ?_⟩
        simp only [Option.getD] at hc
        rw [show stateAt m i = (slotAt m i).state from rfl, h1] at hc
        cases hc
      · obtain ⟨hd1, hd2⟩ := hfd d hfde
        refine ⟨hd1, fun hc => ?_⟩
        rw [show (Option.some d).getD i = d from rfl] at hc
        rw [hd2] at hc
        cases hc
    · rw [if_neg h1] at h
      by_cases h2 : (slotAt m i).state = SlotState.Deleted
      · rw [if_pos h2] at h
        refine probe_miss_spec f (nextSlot TS i) _ (nextSlot_lt i h0) ?_ h
        intro d hd
        by_cases hfn : fd = none
        · rw [if_pos hfn] at hd
          simp only [Option.some.injEq] at hd
          subst hd
          exact ⟨hi, h2⟩
        · rw [if_neg hfn] at hd
          exact hfd d hd
      · rw [if_neg h2] at h
        by_cases h3 : (slotAt m i).key = k
        · rw [if_pos h3] at h
          simp at h
        · rw [if_neg h3] at h
          exact probe_miss_spec f (nextSlot TS i) fd (nextSlot_lt i h0) hfd h

theorem probe_fd_locked {m : MapState K V} {k : K} {TS : Nat} {t d : Nat} :
    ∀ (f i : Nat), probeF m k TS f i (some d) = some (ProbeOut.miss t) → t = d
  | 0, i, h => absurd h (by simp [probeF])
  | f+1, i, h => by
    unfold probeF at h
    dsimp only at h
    by_cases h1 : (slotAt m i).state = SlotState.Empty
    · rw [if_pos h1] at h
      simp only [Option.some.injEq, ProbeOut.miss.injEq] at h
      exact h.symm
    · rw [if_neg h1] at h
      by_cases h2 : (slotAt m i).state = SlotState.Deleted
      · rw [if_pos h2] at h
        rw [if_neg (by simp)] at h
        exact probe_fd_locked f (nextSlot TS i) h
      · rw [if_neg h2] at h
        by_cases h3 : (slotAt m i).key = k
        · rw [if_pos h3] at h
          simp at h
        · rw [if_neg h3] at h
          exact probe_fd_locked f (nextSlot TS i) h

theorem probe_assign_agree {m : MapState K V} {k : K} {TS : Nat} {t : Nat} :
    ∀ (f i : Nat) (fd : Option Nat),
      probeF m k TS f i fd = some (ProbeOut.miss t) →
      assignGo m TS f i fd = some t
  | 0, i, fd, h => absurd h (by simp [probeF])
  | f+1, i, fd, h => by
    unfold probeF at h
    dsimp only at h
    unfold assignGo
    dsimp only
    by_cases h1 : (slotAt m i).state = SlotState.Empty
    · rw [if_pos h1] at h ⊢
      simp only [Option.some.injEq, ProbeOut.miss.injEq] at h
      rw [h]
    · rw [if_neg h1] at h ⊢
      by_cases h2 : (slotAt m i).state = SlotState.Deleted
      · rw [if_pos h2] at h ⊢
        exact probe_assign_agree f (nextSlot TS i) _ h
      · rw [if_neg h2] at h ⊢
        by_cases h3 : (slotAt m i).key = k
        · rw [if_pos h3] at h
          simp at h
        · rw [if_neg h3] at h
          exact probe_assign_agree f (nextSlot TS i) fd h

theorem assign_spec {m : MapState K V} {TS : Nat} {t : Nat} :
    ∀ (f i : Nat) (fd : Option Nat), i < TS →
      (∀ d, fd = some d → d < TS ∧ stateAt m d = SlotState.Deleted) →
      assignGo m TS f i fd = some t →
      t < TS ∧ stateAt m t ≠ SlotState.Occupied
  | 0, i, fd, hi, hfd, h => absurd h (by simp [assignGo])
  | f+1, i, fd, hi, hfd, h => by
    have h0 : 0 < TS := by omega
    unfold assignGo at h
    dsimp only at h
    by_cases h1 : (slotAt m i).state = SlotState.Empty
    · rw [if_pos h1] at h
      simp only [Option.some.injEq] at h
      subst h
      rcases hfde : fd with _ | d
      · refine ⟨hi, fun hc => ?_⟩
        simp only [Option.getD] at hc
        rw [show stateAt m i = (slotAt m i).state from rfl, h1] at hc
        cases hc
      · obtain ⟨hd1, hd2⟩ := hfd d hfde
        refine ⟨hd1, fun hc => ?_⟩
        rw [show (Option.some d).getD i = d from rfl] at hc
        rw [hd2] at hc
        cases hc
    · rw [if_neg h1] at h
      by_cases h2 : (slotAt m i).state = SlotState.Deleted
      · rw [if_pos h2] at h
        refine assign_spec f (nextSlot TS i) _ (nextSlot_lt i h0) ?_ h
        intro d hd
        by_cases hfn : fd = none
        · rw [if_pos hfn] at hd
          simp only [Option.some.injEq] at hd
          subst hd
          exact ⟨hi, h2⟩
        · rw [if_neg hfn] at hd
          exact hfd d hd
      · rw [if_neg h2] at h
        exact assign_spec f (nextSlot TS i) fd (nextSlot_lt i h0) hfd h

theorem probe_congr {m m2 : MapState K V} {k : K} {TS : Nat}
    (hag : ∀ j, stateAt m2 j = stateAt m j ∧ keyAt m2 j = keyAt m j) :
    ∀ (f i : Nat) (fd : Option Nat), probeF m2 k TS f i fd = probeF m k TS f i fd
  | 0, i, fd => rfl
  | f+1, i, fd => by
    have hs : (slotAt m2 i).state = (slotAt m i).state := (hag i).1
    have hk : (slotAt m2 i).key = (slotAt m i).key := (hag i).2
    unfold probeF
    dsimp only
    rw [hs, hk]
    by_cases h1 : (slotAt m i).state = SlotState.Empty
    · rw [if_pos h1, if_pos h1]
    · rw [if_neg h1, if_neg h1]
      by_cases h2 : (slotAt m i).state = SlotState.Deleted
      · rw [if_pos h2, if_pos h2]
        exact probe_congr hag f _ _
      · rw [if_neg h2, if_neg h2]
        by_cases h3 : (slotAt m i).key = k
        · rw [if_pos h3, if_pos h3]
        · rw [if_neg h3, if_neg h3]
          exact probe_congr hag f _ _

end LRUModel

namespace LRUModel

variable {K V : Type} [DecidableEq K] [DecidableEq V] [Inhabited K]

theorem countP_set_add {α : Type} (p : α → Bool) (d : α) :
    ∀ (l : List α) (i : Nat) (x : α), i < l.length →
      (l.set i x).countP p + (if p (l.getD i d) then 1 else 0) =
        l.countP p + (if p x then 1 else 0)
  | [], i, x, hi => absurd hi (by simp)
  | a :: l, 0, x, hi => by
    simp only [List.set, List.getD_cons_zero, List.countP_cons]
    omega
  | a :: l, i+1, x, hi => by
    have ih := countP_set_add p d l i x (by simpa using hi)
    simp only [List.set, List.countP_cons]
    rw [List.getD_cons_succ]
    omega

theorem countP_eq_of_pointwise {α : Type} (p : α → Bool) (d : α) :
    ∀ (l l2 : List α), l2.length = l.length →
      (∀ j, p (l2.getD j d) = p (l.getD j d)) →
      l2.countP p = l.countP p
  | [], [], _, _ => rfl
  | [], a :: l2, hlen, _ => absurd hlen (by simp)
  | a :: l, [], hlen, _ => absurd hlen (by simp)
  | a :: l, b :: l2, hlen, hp => by
    simp only [List.countP_cons]
    have h0 : p b = p a := by simpa [List.getD_cons_zero] using hp 0
    have ih := countP_eq_of_pointwise p d l l2 (by simpa using hlen)
      (fun j => by simpa [List.getD_cons_succ] using hp (j+1))
    rw [h0, ih]

theorem occCount_congr {m m2 : MapState K V} (hlen : m2.slots.length = m.slots.length)
    (hf : ∀ j, stateAt m2 j = stateAt m j) : occCount m2 = occCount m := by
  refine countP_eq_of_pointwise _ default m.slots m2.slots hlen ?_
  intro j
  have h2 : (m2.slots.getD j default).state = (m.slots.getD j default).state := hf j
  simp only [h2]

theorem stateAt_of_fields {m m2 : MapState K V} {j : Nat}
    (h : fieldsAt m2 j = fieldsAt m j) : stateAt m2 j = stateAt m j :=
  congrArg (fun q => q.1) h

theorem keyAt_of_fields {m m2 : MapState K V} {j : Nat}
    (h : fieldsAt m2 j = fieldsAt m j) : keyAt m2 j = keyAt m j :=
  congrArg (fun q => q.2.1) h

theorem valueAt_of_fields {m m2 : MapState K V} {j : Nat}
    (h : fieldsAt m2 j = fieldsAt m j) : valueAt m2 j = valueAt m j :=
  congrArg (fun q => q.2.2.2) h

theorem occCount_detach (m : MapState K V) (i : Nat) :
    occCount (detach m i) = occCount m :=
  occCount_congr (length_detach m i) (fun j => stateAt_of_fields (fieldsAt_detach m i j))

theorem occCount_pushFront (m : MapState K V) (i : Nat) :
    occCount (pushFront m i) = occCount m :=
  occCount_congr (length_pushFront m i)
    (fun j => stateAt_of_fields (fieldsAt_pushFront m i j))

theorem occCount_mtf (m : MapState K V) (i : Nat) :
    occCount (moveToFront m i) = occCount m :=
  occCount_congr (length_mtf m i) (fun j => stateAt_of_fields (fieldsAt_mtf m i j))

theorem occCount_setSlot (m : MapState K V) (i : Nat) (sl : Slot K V)
    (hi : i < m.slots.length) :
    occCount (setSlot m i sl) + (if stateAt m i = SlotState.Occupied then 1 else 0) =
      occCount m + (if sl.state = SlotState.Occupied then 1 else 0) := by
  have h := countP_set_add (fun s => decide (s.state = SlotState.Occupied))
    default m.slots i sl hi
  simpa [occCount, setSlot, slotAt, stateAt] using h

theorem occCount_setSlot_same (m : MapState K V) (i : Nat) (sl : Slot K V)
    (hs : sl.state = stateAt m i) : occCount (setSlot m i sl) = occCount m := by
  by_cases hi : i < m.slots.length
  · have h := occCount_setSlot m i sl hi
    rw [hs] at h
    omega
  · rw [setSlot_oob m i sl (by omega)]

end LRUModel

namespace LRUModel

variable {K V : Type} [DecidableEq K] [DecidableEq V] [Inhabited K]

/-- All intrusive links of the table are null (the put-only list shape). -/
def LinksNone (m : MapState K V) : Prop :=
  ∀ j, (slotAt m j).next = none ∧ (slotAt m j).prev = none

theorem occCount_updateSlot (m : MapState K V) (i : Nat) (v : V)
    (hocc : stateAt m i = SlotState.Occupied) :
    occCount (updateSlot m i v).1 = occCount m := by
  unfold updateSlot
  dsimp only
  exact occCount_setSlot_same m i _ hocc.symm

theorem occCount_emplaceAt (m : MapState K V) (i : Nat) (k : K) (v : V)
    (hi : i < m.slots.length) (hne : stateAt m i ≠ SlotState.Occupied) :
    occCount (emplaceAt m i k v) = occCount m + 1 := by
  unfold emplaceAt
  dsimp only
  have h := occCount_setSlot m i { slotAt m i with
      gen := u32 (u32 ((slotAt m i).gen + 1) + 1)
      key := k
      state := SlotState.Occupied
      value := some v } hi
  rw [if_neg hne, if_pos rfl] at h
  have hrec : occCount { setSlot m i { slotAt m i with
      gen := u32 (u32 ((slotAt m i).gen + 1) + 1)
      key := k
      state := SlotState.Occupied
      value := some v } with size := (setSlot m i { slotAt m i with
      gen := u32 (u32 ((slotAt m i).gen + 1) + 1)
      key := k
      state := SlotState.Occupied
      value := some v }).size + 1 } = occCount (setSlot m i { slotAt m i with
      gen := u32 (u32 ((slotAt m i).gen + 1) + 1)
      key := k
      state := SlotState.Occupied
      value := some v }) := rfl
  rw [hrec]
  omega

theorem size_emplaceAt (m : MapState K V) (i : Nat) (k : K) (v : V) :
    (emplaceAt m i k v).size = m.size + 1 := rfl

theorem size_updateSlot (m : MapState K V) (i : Nat) (v : V) :
    (updateSlot m i v).1.size = m.size := rfl

theorem head_updateSlot (m : MapState K V) (i : Nat) (v : V) :
    (updateSlot m i v).1.head = m.head := rfl

theorem tail_updateSlot (m : MapState K V) (i : Nat) (v : V) :
    (updateSlot m i v).1.tail = m.tail := rfl

theorem head_emplaceAt (m : MapState K V) (i : Nat) (k : K) (v : V) :
    (emplaceAt m i k v).head = m.head := rfl

theorem tail_emplaceAt (m : MapState K V) (i : Nat) (k : K) (v : V) :
    (emplaceAt m i k v).tail = m.tail := rfl

theorem length_updateSlot (m : MapState K V) (i : Nat) (v : V) :
    (updateSlot m i v).1.slots.length = m.slots.length := by
  unfold updateSlot setSlot
  simp

theorem length_emplaceAt (m : MapState K V) (i : Nat) (k : K) (v : V) :
    (emplaceAt m i k v).slots.length = m.slots.length := by
  unfold emplaceAt setSlot
  simp

theorem stateAt_updateSlot_self (m : MapState K V) (i : Nat) (v : V)
    (hi : i < m.slots.length) :
    stateAt (updateSlot m i v).1 i = SlotState.Occupied := by
  unfold updateSlot stateAt
  dsimp only
  rw [slotAt_setSlot_self m i _ hi]

theorem valueAt_updateSlot_self (m : MapState K V) (i : Nat) (v : V)
    (hi : i < m.slots.length) :
    valueAt (updateSlot m i v).1 i = some v := by
  unfold updateSlot valueAt
  dsimp only
  rw [slotAt_setSlot_self m i _ hi]

theorem slotAt_emplaceAt_self (m : MapState K V) (i : Nat) (k : K) (v : V)
    (hi : i < m.slots.length) :
    slotAt (emplaceAt m i k v) i = { slotAt m i with
        gen := u32 (u32 ((slotAt m i).gen + 1) + 1)
        key := k
        state := SlotState.Occupied
        value := some v } := by
  show slotAt (setSlot m i { slotAt m i with
      gen := u32 (u32 ((slotAt m i).gen + 1) + 1)
      key := k
      state := SlotState.Occupied
      value := some v }) i = _
  exact slotAt_setSlot_self m i _ hi

theorem stateAt_emplaceAt_self (m : MapState K V) (i : Nat) (k : K) (v : V)
    (hi : i < m.slots.length) :
    stateAt (emplaceAt m i k v) i = SlotState.Occupied := by
  show (slotAt (emplaceAt m i k v) i).state = SlotState.Occupied
  rw [slotAt_emplaceAt_self m i k v hi]

theorem valueAt_emplaceAt_self (m : MapState K V) (i : Nat) (k : K) (v : V)
    (hi : i < m.slots.length) :
    valueAt (emplaceAt m i k v) i = some v := by
  show (slotAt (emplaceAt m i k v) i).value = some v
  rw [slotAt_emplaceAt_self m i k v hi]

theorem keyAt_emplaceAt_self (m : MapState K V) (i : Nat) (k : K) (v : V)
    (hi : i < m.slots.length) :
    keyAt (emplaceAt m i k v) i = k := by
  show (slotAt (emplaceAt m i k v) i).key = k
  rw [slotAt_emplaceAt_self m i k v hi]

end LRUModel

namespace LRUModel

variable {K V : Type} [DecidableEq K] [DecidableEq V] [Inhabited K]

theorem linksNone_setSlot {m : MapState K V} {i : Nat} {sl : Slot K V}
    (hln : LinksNone m) (hsl : sl.next = none ∧ sl.prev = none) :
    LinksNone (setSlot m i sl) := by
  intro j
  by_cases hj : j = i
  · subst hj
    by_cases hjl : j < m.slots.length
    · rw [slotAt_setSlot_self m j sl hjl]
      exact hsl
    · rw [setSlot_oob m j sl (by omega)]
      exact hln j
  · rw [slotAt_setSlot_ne m i j sl hj]
    exact hln j

theorem linksNone_updateSlot {m : MapState K V} (i : Nat) (v : V)
    (hln : LinksNone m) : LinksNone (updateSlot m i v).1 := by
  unfold updateSlot
  dsimp only
  exact linksNone_setSlot hln ⟨(hln i).1, (hln i).2⟩

theorem linksNone_emplaceAt {m : MapState K V} (i : Nat) (k : K) (v : V)
    (hln : LinksNone m) : LinksNone (emplaceAt m i k v) := by
  intro j
  show (slotAt (setSlot m i { slotAt m i with
      gen := u32 (u32 ((slotAt m i).gen + 1) + 1)
      key := k
      state := SlotState.Occupied
      value := some v }) j).next = none ∧
    (slotAt (setSlot m i { slotAt m i with
      gen := u32 (u32 ((slotAt m i).gen + 1) + 1)
      key := k
      state := SlotState.Occupied
      value := some v }) j).prev = none
  refine linksNone_setSlot hln ⟨?_, ?_⟩ j
  · exact (hln i).1
  · exact (hln i).2

theorem detach_ln {m : MapState K V} (hln : LinksNone m) (i : Nat) :
    detach m i = setSlot { m with head := none, tail := none } i
      { slotAt m i with next := none, prev := none } := by
  unfold detach
  dsimp only
  rw [(hln i).1, (hln i).2]
  rfl

theorem head_detach_ln {m : MapState K V} (hln : LinksNone m) (i : Nat) :
    (detach m i).head = none := by
  rw [detach_ln hln i]
  rfl

theorem tail_detach_ln {m : MapState K V} (hln : LinksNone m) (i : Nat) :
    (detach m i).tail = none := by
  rw [detach_ln hln i]
  rfl

theorem linksNone_detach {m : MapState K V} (hln : LinksNone m) (i : Nat) :
    LinksNone (detach m i) := by
  rw [detach_ln hln i]
  exact linksNone_setSlot (fun j => hln j) ⟨rfl, rfl⟩

theorem head_pushFront (m : MapState K V) (i : Nat) :
    (pushFront m i).head = some i := by
  unfold pushFront
  rcases hh : m.head with _ | h0 <;> dsimp only <;> split_ifs <;> rfl

theorem tail_pushFront (m : MapState K V) (i : Nat) (ht : m.tail = none) :
    (pushFront m i).tail = some i := by
  unfold pushFront
  rcases hh : m.head with _ | h0 <;> dsimp only <;> split_ifs with hc
  · rfl
  · exact absurd ht hc
  · rfl
  · exact absurd ht hc

theorem linksNone_pushFront {m : MapState K V} (i : Nat)
    (hln : LinksNone m) (hh : m.head = none) : LinksNone (pushFront m i) := by
  unfold pushFront
  rw [hh]
  dsimp only
  split_ifs <;> intro j <;>
    exact linksNone_setSlot hln ⟨rfl, rfl⟩ j

theorem linksNone_mtf {m : MapState K V} (i : Nat) (hln : LinksNone m) :
    LinksNone (moveToFront m i) := by
  unfold moveToFront
  split_ifs with hc
  · exact hln
  · exact linksNone_pushFront i (linksNone_detach hln i) (head_detach_ln hln i)

theorem tail_mtf_ln {m : MapState K V} (i : Nat) (hln : LinksNone m)
    (hht : m.head = m.tail) : (moveToFront m i).tail = some i := by
  unfold moveToFront
  split_ifs with hc
  · rw [← hht]
    exact hc
  · exact tail_pushFront (detach m i) i (tail_detach_ln hln i)

end LRUModel

namespace LRUModel

variable {K V : Type} [DecidableEq K] [DecidableEq V] [Inhabited K]

theorem size_eraseIndex_occ {m : MapState K V} {i : Nat}
    (hocc : stateAt m i = SlotState.Occupied) :
    (eraseIndex m i).size = m.size - 1 := by
  have h1 : (eraseIndex m i).size = (detach m i).size - 1 := by
    unfold eraseIndex
    rw [if_neg (not_not_intro hocc)]
    rfl
  rw [h1, size_detach]

theorem head_eraseIndex_ln {m : MapState K V} {i : Nat} (hln : LinksNone m)
    (hocc : stateAt m i = SlotState.Occupied) :
    (eraseIndex m i).head = none := by
  have h1 : (eraseIndex m i).head = (detach m i).head := by
    unfold eraseIndex
    rw [if_neg (not_not_intro hocc)]
    rfl
  rw [h1, head_detach_ln hln i]

theorem tail_eraseIndex_ln {m : MapState K V} {i : Nat} (hln : LinksNone m)
    (hocc : stateAt m i = SlotState.Occupied) :
    (eraseIndex m i).tail = none := by
  have h1 : (eraseIndex m i).tail = (detach m i).tail := by
    unfold eraseIndex
    rw [if_neg (not_not_intro hocc)]
    rfl
  rw [h1, tail_detach_ln hln i]

theorem length_eraseIndex (m : MapState K V) (i : Nat) :
    (eraseIndex m i).slots.length = m.slots.length := by
  unfold eraseIndex
  split_ifs with hg
  · rfl
  · show (setSlot (detach m i) i { slotAt (detach m i) i with
        gen := u32 (u32 ((slotAt (detach m i) i).gen + 1) + 1)
        value := none
        state := SlotState.Deleted }).slots.length = m.slots.length
    rw [length_setSlot, length_detach]

theorem occCount_eraseIndex {m : MapState K V} {i : Nat}
    (hi : i < m.slots.length) (hocc : stateAt m i = SlotState.Occupied) :
    occCount (eraseIndex m i) + 1 = occCount m := by
  have hlen : i < (detach m i).slots.length := by
    rw [length_detach]
    exact hi
  have hsd : stateAt (detach m i) i = SlotState.Occupied :=
    (stateAt_of_fields (fieldsAt_detach m i i)).trans hocc
  have h := occCount_setSlot (detach m i) i { slotAt (detach m i) i with
      gen := u32 (u32 ((slotAt (detach m i) i).gen + 1) + 1)
      value := none
      state := SlotState.Deleted } hlen
  rw [if_pos hsd, if_neg (by simp)] at h
  have h2 : occCount (eraseIndex m i) = occCount (setSlot (detach m i) i
      { slotAt (detach m i) i with
        gen := u32 (u32 ((slotAt (detach m i) i).gen + 1) + 1)
        value := none
        state := SlotState.Deleted }) := by
    unfold eraseIndex
    rw [if_neg (not_not_intro hocc)]
    rfl
  rw [h2]
  rw [occCount_detach] at h
  omega

theorem stateAt_eraseIndex_self {m : MapState K V} {i : Nat}
    (hi : i < m.slots.length) (hocc : stateAt m i = SlotState.Occupied) :
    stateAt (eraseIndex m i) i = SlotState.Deleted := by
  have hlen : i < (detach m i).slots.length := by
    rw [length_detach]
    exact hi
  have h1 : stateAt (eraseIndex m i) i = stateAt (setSlot (detach m i) i
      { slotAt (detach m i) i with
        gen := u32 (u32 ((slotAt (detach m i) i).gen + 1) + 1)
        value := none
        state := SlotState.Deleted }) i := by
    unfold eraseIndex
    rw [if_neg (not_not_intro hocc)]
    rfl
  rw [h1]
  show (slotAt (setSlot (detach m i) i { slotAt (detach m i) i with
      gen := u32 (u32 ((slotAt (detach m i) i).gen + 1) + 1)
      value := none
      state := SlotState.Deleted }) i).state = SlotState.Deleted
  rw [slotAt_setSlot_self _ _ _ hlen]

theorem fieldsAt_eraseIndex_ne (m : MapState K V) (i j : Nat) (hj : j ≠ i) :
    fieldsAt (eraseIndex m i) j = fieldsAt m j := by
  unfold eraseIndex
  split_ifs with hg
  · rfl
  · refine Eq.trans ?_ (fieldsAt_detach m i j)
    exact Eq.trans (fieldsAt_ext rfl j) (fieldsAt_setSlot_ne _ _ _ _ hj)

theorem linksNone_eraseIndex {m : MapState K V} (i : Nat) (hln : LinksNone m) :
    LinksNone (eraseIndex m i) := by
  unfold eraseIndex
  split_ifs with hg
  · exact hln
  · intro j
    refine linksNone_setSlot (linksNone_detach hln i) ⟨?_, ?_⟩ j
    · exact (linksNone_detach hln i i).1
    · exact (linksNone_detach hln i i).2

end LRUModel

namespace LRUModel

variable {K V : Type} [DecidableEq K] [DecidableEq V] [Inhabited K]

theorem lookupD_cases {hK : K → Nat} {TS : Nat} {m : MapState K V} {k : K}
    {res : LookRes V} (h : lookupD hK TS m k = some res) :
    (probeF m k TS TS (hashIdx hK TS k) none = some (ProbeOut.miss res.idx) ∧
      res.ptr = none) ∨
    (probeF m k TS TS (hashIdx hK TS k) none = some (ProbeOut.hit res.idx) ∧
      res.ptr = valueAt m res.idx) := by
  unfold lookupD at h
  rcases hp : probeF m k TS TS (hashIdx hK TS k) none with _ | pr
  · rw [hp] at h
    cases h
  · rw [hp] at h
    rcases pr with t | i
    · left
      cases Option.some.inj h
      exact ⟨rfl, rfl⟩
    · right
      cases Option.some.inj h
      exact ⟨rfl, rfl⟩

theorem putInv_build {Cap : Nat} (s' : Shard K V) (X : MapState K V) (t : Nat)
    (hcol : s'.col = moveToFront X t)
    (hdirty : s'.dirty = 0)
    (hXlen : X.slots.length = 2 * Cap)
    (hXsz : X.size = occCount X)
    (hXcap : X.size ≤ Cap)
    (hXht : X.head = X.tail)
    (hXln : LinksNone X)
    (htlt : t < 2 * Cap)
    (htocc : stateAt X t = SlotState.Occupied)
    (hXvo : ValuedOcc (2 * Cap) X) :
    PutInv Cap s' := by
  refine ⟨?_, ?_, ?_, ?_, ?_, ?_, ?_, ?_, hdirty⟩
  · rw [hcol, length_mtf, hXlen]
  · rw [hcol, size_mtf, occCount_mtf, hXsz]
  · rw [hcol, size_mtf]
    exact hXcap
  · rw [hcol, head_mtf, tail_mtf_ln t hXln hXht]
  · rw [hcol]
    exact linksNone_mtf t hXln
  · intro h0 hh0
    rw [hcol, head_mtf] at hh0
    cases Option.some.inj hh0
    refine ⟨htlt, ?_⟩
    rw [hcol]
    exact (stateAt_of_fields (fieldsAt_mtf X t t)).trans htocc
  · intro _
    rw [hcol, head_mtf]
    exact fun hc => Option.noConfusion hc
  · intro j hj hst
    rw [hcol] at hst
    rw [hcol]
    have hs := stateAt_of_fields (fieldsAt_mtf X t j)
    have hv := valueAt_of_fields (fieldsAt_mtf X t j)
    rw [hv]
    exact hXvo j hj (hs.symm.trans hst)

theorem countP_replicate_false {α : Type} (p : α → Bool) (d : α)
    (h : p d = false) : ∀ n, (List.replicate n d).countP p = 0
  | 0 => rfl
  | n+1 => by
    simp only [List.replicate, List.countP_cons, h]
    rw [countP_replicate_false p d h n]
    simp

theorem occCount_initMap (TS : Nat) : occCount (initMap TS : MapState K V) = 0 := by
  unfold occCount initMap
  exact countP_replicate_false _ _ (by simp) TS

theorem slotAt_initMap (TS j : Nat) :
    slotAt (initMap TS : MapState K V) j = default := by
  unfold slotAt initMap
  exact getD_replicate TS j default

theorem putInv_init (Cap M RC : Nat) : PutInv Cap (initShard K V Cap M RC) := by
  refine ⟨by simp [initShard, initMap], ?_, ?_, rfl, ?_, ?_, ?_, ?_, rfl⟩
  · show (0 : Nat) = occCount (initMap (2 * Cap))
    rw [occCount_initMap]
  · show (0 : Nat) ≤ Cap
    omega
  · intro j
    show (slotAt (initMap (2 * Cap) : MapState K V) j).next = none ∧
      (slotAt (initMap (2 * Cap) : MapState K V) j).prev = none
    rw [slotAt_initMap]
    exact ⟨rfl, rfl⟩
  · intro h0 hh0
    cases hh0
  · intro hc
    exact absurd rfl hc
  · intro j hj hst
    rw [show stateAt (initShard K V Cap M RC).col j =
      (slotAt (initMap (2 * Cap) : MapState K V) j).state from rfl,
      slotAt_initMap] at hst
    cases hst

end LRUModel

namespace LRUModel

variable {K V : Type} [DecidableEq K] [DecidableEq V] [Inhabited K]

theorem putInv_commitPut {Cap : Nat} {hK : K → Nat} {s1 s3 : Shard K V} {k : K} {v : V}
    (hCap : 0 < Cap) (hinv : PutInv Cap s1)
    (h : commitPut Cap hK s1 k v = some s3) : PutInv Cap s3 := by
  obtain ⟨hL, hSZ, hCapb, hHT, hLN, hHO, hNZ, hVO, hD0⟩ := hinv
  have hTS : 0 < 2 * Cap := by omega
  unfold commitPut at h
  rcases hlk : lookupD hK (2 * Cap) s1.col k with _ | res
  · rw [hlk] at h
    exact absurd h (by simp)
  rw [hlk] at h
  dsimp only at h
  have hcls := lookupD_cases hlk
  split_ifs at h with hp hfull
  · -- update path: res.ptr ≠ none, probe hit
    have hph : probeF s1.col k (2 * Cap) (2 * Cap) (hashIdx hK (2 * Cap) k) none
        = some (ProbeOut.hit res.idx) := by
      rcases hcls with ⟨_, hp0⟩ | ⟨hph, _⟩
      · exact absurd hp0 hp
      · exact hph
    obtain ⟨hidxlt, hidxocc, _⟩ := probe_hit_spec (2 * Cap) (hashIdx hK (2 * Cap) k)
      none (hashIdx_lt hK k hTS) hph
    have hidxL : res.idx < s1.col.slots.length := by
      rw [hL]
      exact hidxlt
    have hs2 := Option.some.inj h
    subst hs2
    refine putInv_build _ (updateSlot s1.col res.idx v).1 res.idx rfl hD0
      ?_ ?_ ?_ ?_ ?_ hidxlt ?_ ?_
    · rw [length_updateSlot, hL]
    · rw [size_updateSlot, occCount_updateSlot s1.col res.idx v hidxocc]
      exact hSZ
    · rw [size_updateSlot]
      exact hCapb
    · rw [head_updateSlot, tail_updateSlot]
      exact hHT
    · exact linksNone_updateSlot res.idx v hLN
    · exact stateAt_updateSlot_self s1.col res.idx v hidxL
    · intro j hj hst
      by_cases hje : j = res.idx
      · rw [hje, valueAt_updateSlot_self s1.col res.idx v hidxL]
        exact fun hc => Option.noConfusion hc
      · have hf := fieldsAt_updateSlot_ne s1.col res.idx j v hje
        rw [valueAt_of_fields hf]
        exact hVO j hj ((stateAt_of_fields hf).symm.trans hst)
  · -- evict path: miss while full
    have hpm : probeF s1.col k (2 * Cap) (2 * Cap) (hashIdx hK (2 * Cap) k) none
        = some (ProbeOut.miss res.idx) := by
      rcases hcls with ⟨hpm, _⟩ | ⟨hph, hpv⟩
      · exact hpm
      · obtain ⟨hlt, hocc, _⟩ := probe_hit_spec (2 * Cap) (hashIdx hK (2 * Cap) k)
          none (hashIdx_lt hK k hTS) hph
        rw [not_not] at hp
        exact absurd (hpv.symm.trans hp) (hVO res.idx hlt hocc)
    have hsz : s1.col.size = Cap := le_antisymm hCapb hfull
    rcases hhd : s1.col.head with _ | h0
    · exact absurd hhd (hNZ (by omega))
    have htl : s1.col.tail = some h0 := by
      rw [← hHT]
      exact hhd
    rw [htl] at h
    dsimp only at h
    obtain ⟨hh0lt, hh0occ⟩ := hHO h0 hhd
    have hh0L : h0 < s1.col.slots.length := by
      rw [hL]
      exact hh0lt
    rcases has : assignF hK (2 * Cap) (eraseIndex s1.col h0) k with _ | t
    · rw [has] at h
      exact absurd h (by simp)
    rw [has] at h
    have hs2 := Option.some.inj h
    subst hs2
    have hm1len : (eraseIndex s1.col h0).slots.length = 2 * Cap := by
      rw [length_eraseIndex, hL]
    have hm1occ : occCount (eraseIndex s1.col h0) + 1 = occCount s1.col :=
      occCount_eraseIndex hh0L hh0occ
    have hm1sz : (eraseIndex s1.col h0).size = s1.col.size - 1 :=
      size_eraseIndex_occ hh0occ
    have hm1ln : LinksNone (eraseIndex s1.col h0) := linksNone_eraseIndex h0 hLN
    obtain ⟨htlt, htnocc⟩ := assign_spec (2 * Cap) (hashIdx hK (2 * Cap) k) none
      (hashIdx_lt hK k hTS) (fun d hd => Option.noConfusion hd) has
    have htL : t < (eraseIndex s1.col h0).slots.length := by
      rw [hm1len]
      exact htlt
    refine putInv_build _ (emplaceAt (eraseIndex s1.col h0) t k v) t rfl hD0
      ?_ ?_ ?_ ?_ ?_ htlt ?_ ?_
    · rw [length_emplaceAt, hm1len]
    · rw [size_emplaceAt, occCount_emplaceAt _ t k v htL htnocc]
      omega
    · rw [size_emplaceAt]
      omega
    · rw [head_emplaceAt, tail_emplaceAt, head_eraseIndex_ln hLN hh0occ,
        tail_eraseIndex_ln hLN hh0occ]
    · exact linksNone_emplaceAt t k v hm1ln
    · exact stateAt_emplaceAt_self _ t k v htL
    · intro j hj hst
      by_cases hje : j = t
      · rw [hje, valueAt_emplaceAt_self _ t k v htL]
        exact fun hc => Option.noConfusion hc
      · have hf := fieldsAt_emplaceAt_ne (eraseIndex s1.col h0) t j k v hje
        rw [valueAt_of_fields hf]
        have hstm1 : stateAt (eraseIndex s1.col h0) j = SlotState.Occupied :=
          (stateAt_of_fields hf).symm.trans hst
        by_cases hjh0 : j = h0
        · subst hjh0
          rw [stateAt_eraseIndex_self hh0L hh0occ] at hstm1
          cases hstm1
        · have hf2 := fieldsAt_eraseIndex_ne s1.col h0 j hjh0
          rw [valueAt_of_fields hf2]
          exact hVO j hj ((stateAt_of_fields hf2).symm.trans hstm1)
  · -- insert path: miss with room
    have hpm : probeF s1.col k (2 * Cap) (2 * Cap) (hashIdx hK (2 * Cap) k) none
        = some (ProbeOut.miss res.idx) := by
      rcases hcls with ⟨hpm, _⟩ | ⟨hph, hpv⟩
      · exact hpm
      · obtain ⟨hlt, hocc, _⟩ := probe_hit_spec (2 * Cap) (hashIdx hK (2 * Cap) k)
          none (hashIdx_lt hK k hTS) hph
        rw [not_not] at hp
        exact absurd (hpv.symm.trans hp) (hVO res.idx hlt hocc)
    obtain ⟨hidxlt, hidxnocc⟩ := probe_miss_spec (2 * Cap) (hashIdx hK (2 * Cap) k)
      none (hashIdx_lt hK k hTS) (fun d hd => Option.noConfusion hd) hpm
    have hidxL : res.idx < s1.col.slots.length := by
      rw [hL]
      exact hidxlt
    have hs2 := Option.some.inj h
    subst hs2
    refine putInv_build _ (emplaceAt s1.col res.idx k v) res.idx rfl hD0
      ?_ ?_ ?_ ?_ ?_ hidxlt ?_ ?_
    · rw [length_emplaceAt, hL]
    · rw [size_emplaceAt, occCount_emplaceAt _ res.idx k v hidxL hidxnocc, hSZ]
    · rw [size_emplaceAt]
      omega
    · rw [head_emplaceAt, tail_emplaceAt]
      exact hHT
    · exact linksNone_emplaceAt res.idx k v hLN
    · exact stateAt_emplaceAt_self _ res.idx k v hidxL
    · intro j hj hst
      by_cases hje : j = res.idx
      · rw [hje, valueAt_emplaceAt_self _ res.idx k v hidxL]
        exact fun hc => Option.noConfusion hc
      · have hf := fieldsAt_emplaceAt_ne s1.col res.idx j k v hje
        rw [valueAt_of_fields hf]
        exact hVO j hj ((stateAt_of_fields hf).symm.trans hst)

end LRUModel

namespace LRUModel

variable {K V : Type} [DecidableEq K] [DecidableEq V] [Inhabited K]

theorem putInv_cleanup {Cap : Nat} {s : Shard K V} (hinv : PutInv Cap s) :
    PutInv Cap (cleanupRetired s) := by
  obtain ⟨hL, hSZ, hCapb, hHT, hLN, hHO, hNZ, hVO, hD0⟩ := hinv
  exact ⟨hL, hSZ, hCapb, hHT, hLN, hHO, hNZ, hVO, hD0⟩

theorem putInv_lv5Put {Cap : Nat} {hK : K → Nat} {RC : Nat} {s s2 : Shard K V}
    {k : K} {v : V} (hCap : 0 < Cap) (hinv : PutInv Cap s)
    (h : lv5Put Cap hK RC s k v = some s2) : PutInv Cap s2 := by
  obtain ⟨hL, hSZ, hCapb, hHT, hLN, hHO, hNZ, hVO, hD0⟩ := hinv
  have hTS : 0 < 2 * Cap := by omega
  unfold lv5Put at h
  rcases hlk : lookupD hK (2 * Cap) s.col k with _ | res
  · rw [hlk] at h
    exact absurd h (by simp)
  rw [hlk] at h
  dsimp only at h
  have hcls := lookupD_cases hlk
  by_cases hq : res.ptr = some v
  · rw [if_pos hq] at h
    have hs2 := Option.some.inj h
    subst hs2
    have hph : probeF s.col k (2 * Cap) (2 * Cap) (hashIdx hK (2 * Cap) k) none
        = some (ProbeOut.hit res.idx) := by
      rcases hcls with ⟨_, hp0⟩ | ⟨hph, _⟩
      · rw [hq] at hp0
        exact absurd hp0 (by simp)
      · exact hph
    obtain ⟨hidxlt, hidxocc, _⟩ := probe_hit_spec (2 * Cap) (hashIdx hK (2 * Cap) k)
      none (hashIdx_lt hK k hTS) hph
    exact putInv_build _ s.col res.idx rfl hD0 hL hSZ hCapb hHT hLN hidxlt hidxocc hVO
  · rw [if_neg hq] at h
    rw [if_neg (not_not_intro hD0)] at h
    rcases hcm : commitPut Cap hK { s with epochs := bumpEpoch s.epochs } k v with _ | s3
    · rw [hcm] at h
      exact absurd h (by simp)
    rw [hcm] at h
    dsimp only at h
    have hinv3 : PutInv Cap s3 :=
      putInv_commitPut hCap
        (⟨hL, hSZ, hCapb, hHT, hLN, hHO, hNZ, hVO, hD0⟩ :
          PutInv Cap { s with epochs := bumpEpoch s.epochs }) hcm
    have hs2 := Option.some.inj h
    subst hs2
    split_ifs with hcl
    · exact putInv_cleanup hinv3
    · exact hinv3

theorem putInv_runPuts {Cap : Nat} {hK : K → Nat} {RC : Nat} (hCap : 0 < Cap) :
    ∀ (ps : List (K × V)) (s s' : Shard K V), PutInv Cap s →
      runPuts Cap hK RC s ps = some s' → PutInv Cap s'
  | [], s, s', hinv, h => (Option.some.inj h) ▸ hinv
  | kv :: rest, s, s', hinv, h => by
    unfold runPuts at h
    rcases hp : lv5Put Cap hK RC s kv.1 kv.2 with _ | smid
    · rw [hp] at h
      exact absurd h (by simp)
    rw [hp] at h
    exact putInv_runPuts hCap rest smid s' (putInv_lv5Put hCap hinv hp) h

end LRUModel

namespace LRUModel

variable {K V : Type} [DecidableEq K] [DecidableEq V] [Inhabited K]

/-- C3: for every sequence of `put` operations on one shard starting from
the empty state, the stored size counter equals the number of Occupied
table slots and never exceeds `Capacity` (the full path first evicts the
list tail, so insertion never pushes the occupied count past the
capacity). -/
theorem claimC3_capacity_bound (Cap M RC : Nat) (hK : K → Nat) (hCap : 0 < Cap)
    (ps : List (K × V)) (s : Shard K V)
    (hrun : runPuts Cap hK RC (initShard K V Cap M RC) ps = some s) :
    s.col.size = occCount s.col ∧ s.col.size ≤ Cap ∧ occCount s.col ≤ Cap := by
  obtain ⟨_, hSZ, hCapb, _⟩ :=
    putInv_runPuts hCap ps _ s (putInv_init Cap M RC) hrun
  exact ⟨hSZ, hCapb, hSZ ▸ hCapb⟩

theorem claimC3_capacity_bound_witness :
    (0 : Nat) < 4 ∧
    (((runPuts 4 id 1 (initShard Nat Nat 4 1 1) [(1, 10), (2, 20)]).getD
        (initShard Nat Nat 4 1 1)).col.size =
      occCount ((runPuts 4 id 1 (initShard Nat Nat 4 1 1) [(1, 10), (2, 20)]).getD
        (initShard Nat Nat 4 1 1)).col ∧
    ((runPuts 4 id 1 (initShard Nat Nat 4 1 1) [(1, 10), (2, 20)]).getD
        (initShard Nat Nat 4 1 1)).col.size ≤ 4 ∧
    occCount ((runPuts 4 id 1 (initShard Nat Nat 4 1 1) [(1, 10), (2, 20)]).getD
        (initShard Nat Nat 4 1 1)).col ≤ 4) :=
  ⟨by decide,
    claimC3_capacity_bound 4 1 1 id (by decide) [(1, 10), (2, 20)]
      ((runPuts 4 id 1 (initShard Nat Nat 4 1 1) [(1, 10), (2, 20)]).getD
        (initShard Nat Nat 4 1 1)) (by decide)⟩

end LRUModel

namespace LRUModel

variable {K V : Type} [DecidableEq K] [DecidableEq V] [Inhabited K]

instance (TS : Nat) (m : MapState K V) [DecidableEq V] : Decidable (ValuedOcc TS m) := by
  unfold ValuedOcc
  infer_instance

theorem mtf_head_self {m : MapState K V} {i : Nat} (h : m.head = some i) :
    moveToFront m i = m := by
  unfold moveToFront
  rw [if_pos h]

theorem eraseIndex_noop {m : MapState K V} {i : Nat}
    (h : stateAt m i ≠ SlotState.Occupied) : eraseIndex m i = m := by
  unfold eraseIndex
  rw [if_pos h]

theorem getD_oob {α : Type} : ∀ (l : List α) (n : Nat) (d : α), l.length ≤ n →
    l.getD n d = d
  | [], n, d, _ => by simp [List.getD]
  | x :: l, 0, d, h => absurd h (by simp)
  | x :: l, n+1, d, h => by
    rw [List.getD_cons_succ]
    exact getD_oob l n d (by simpa using h)

theorem stateAt_oob {m : MapState K V} {j : Nat} (h : m.slots.length ≤ j) :
    stateAt m j = SlotState.Empty := by
  unfold stateAt slotAt
  rw [getD_oob m.slots j default h]
  rfl

theorem keyAt_updateSlot_self (m : MapState K V) (i : Nat) (v : V)
    (hi : i < m.slots.length) :
    keyAt (updateSlot m i v).1 i = keyAt m i := by
  unfold updateSlot keyAt
  dsimp only
  rw [slotAt_setSlot_self m i _ hi]

theorem skAgree_mtf (m : MapState K V) (i : Nat) :
    ∀ j, stateAt (moveToFront m i) j = stateAt m j ∧
      keyAt (moveToFront m i) j = keyAt m j :=
  fun j => ⟨stateAt_of_fields (fieldsAt_mtf m i j), keyAt_of_fields (fieldsAt_mtf m i j)⟩

theorem skAgree_updateSlot (m : MapState K V) (i : Nat) (v : V)
    (hi : i < m.slots.length) (hocc : stateAt m i = SlotState.Occupied) :
    ∀ j, stateAt (updateSlot m i v).1 j = stateAt m j ∧
      keyAt (updateSlot m i v).1 j = keyAt m j := by
  intro j
  by_cases hj : j = i
  · subst hj
    exact ⟨(stateAt_updateSlot_self m j v hi).trans hocc.symm,
      keyAt_updateSlot_self m j v hi⟩
  · have hf := fieldsAt_updateSlot_ne m i j v hj
    exact ⟨stateAt_of_fields hf, keyAt_of_fields hf⟩

theorem probe_plant_hit {m m2 : MapState K V} {k : K} {TS t : Nat}
    (hag : ∀ j, j ≠ t → stateAt m2 j = stateAt m j ∧ keyAt m2 j = keyAt m j)
    (ht2 : stateAt m2 t = SlotState.Occupied) (hk2 : keyAt m2 t = k)
    (htm : stateAt m t ≠ SlotState.Occupied) :
    ∀ (f i : Nat), probeF m k TS f i none = some (ProbeOut.miss t) →
      probeF m2 k TS f i none = some (ProbeOut.hit t)
  | 0, i, h => absurd h (by simp [probeF])
  | f+1, i, h => by
    unfold probeF at h ⊢
    dsimp only at h ⊢
    by_cases h1 : (slotAt m i).state = SlotState.Empty
    · rw [if_pos h1] at h
      simp only [Option.some.injEq, ProbeOut.miss.injEq, Option.getD_none] at h
      subst h
      rw [show (slotAt m2 i).state = SlotState.Occupied from ht2,
        show (slotAt m2 i).key = k from hk2]
      rw [if_neg (by simp), if_neg (by simp), if_pos rfl]
    · rw [if_neg h1] at h
      by_cases h2 : (slotAt m i).state = SlotState.Deleted
      · rw [if_pos h2] at h
        rw [if_pos rfl] at h
        have hti := probe_fd_locked f (nextSlot TS i) h
        subst hti
        rw [show (slotAt m2 t).state = SlotState.Occupied from ht2,
          show (slotAt m2 t).key = k from hk2]
        rw [if_neg (by simp), if_neg (by simp), if_pos rfl]
      · rw [if_neg h2] at h
        by_cases h3 : (slotAt m i).key = k
        · rw [if_pos h3] at h
          simp at h
        · rw [if_neg h3] at h
          have hne : i ≠ t := by
            intro he
            exact htm (he ▸ state_occ_of_ne h1 h2)
          obtain ⟨hsj, hkj⟩ := hag i hne
          rw [show (slotAt m2 i).state = (slotAt m i).state from hsj,
            show (slotAt m2 i).key = (slotAt m i).key from hkj]
          rw [if_neg h1, if_neg h2, if_neg h3]
          exact probe_plant_hit hag ht2 hk2 htm f (nextSlot TS i) h

theorem probe_miss_mono {m m2 : MapState K V} {k : K} {TS : Nat}
    (hEmp : ∀ j, stateAt m2 j = SlotState.Empty ↔ stateAt m j = SlotState.Empty)
    (hOcc : ∀ j, stateAt m2 j = SlotState.Occupied → keyAt m2 j = k →
      stateAt m j = SlotState.Occupied ∧ keyAt m j = k) :
    ∀ (f i : Nat) (fd fd2 : Option Nat) (t : Nat),
      probeF m k TS f i fd = some (ProbeOut.miss t) →
      ∃ r, probeF m2 k TS f i fd2 = some (ProbeOut.miss r)
  | 0, i, fd, fd2, t, h => absurd h (by simp [probeF])
  | f+1, i, fd, fd2, t, h => by
    unfold probeF at h ⊢
    dsimp only at h ⊢
    by_cases h1 : (slotAt m i).state = SlotState.Empty
    · have h1b : (slotAt m2 i).state = SlotState.Empty := (hEmp i).mpr h1
      rw [if_pos h1b]
      exact ⟨_, rfl⟩
    · rw [if_neg h1] at h
      have h1b : ¬ (slotAt m2 i).state = SlotState.Empty :=
        fun hc => h1 ((hEmp i).mp hc)
      rw [if_neg h1b]
      by_cases h2 : (slotAt m i).state = SlotState.Deleted
      · rw [if_pos h2] at h
        by_cases h2b : (slotAt m2 i).state = SlotState.Deleted
        · rw [if_pos h2b]
          exact probe_miss_mono hEmp hOcc f (nextSlot TS i) _ _ t h
        · rw [if_neg h2b]
          by_cases h3b : (slotAt m2 i).key = k
          · obtain ⟨hmo, _⟩ := hOcc i (state_occ_of_ne h1b h2b) h3b
            exact absurd (h2.symm.trans hmo) (by simp)
          · rw [if_neg h3b]
            exact probe_miss_mono hEmp hOcc f (nextSlot TS i) _ _ t h
      · rw [if_neg h2] at h
        by_cases h3 : (slotAt m i).key = k
        · rw [if_pos h3] at h
          simp at h
        · rw [if_neg h3] at h
          by_cases h2b : (slotAt m2 i).state = SlotState.Deleted
          · rw [if_pos h2b]
            exact probe_miss_mono hEmp hOcc f (nextSlot TS i) _ _ t h
          · rw [if_neg h2b]
            by_cases h3b : (slotAt m2 i).key = k
            · obtain ⟨_, hmk⟩ := hOcc i (state_occ_of_ne h1b h2b) h3b
              exact absurd hmk h3
            · rw [if_neg h3b]
              exact probe_miss_mono hEmp hOcc f (nextSlot TS i) _ _ t h

end LRUModel

namespace LRUModel

variable {K V : Type} [DecidableEq K] [DecidableEq V] [Inhabited K]

theorem hEmp_erase (m : MapState K V) (te : Nat) :
    ∀ j, stateAt (eraseIndex m te) j = SlotState.Empty ↔
      stateAt m j = SlotState.Empty := by
  intro j
  by_cases hocc : stateAt m te = SlotState.Occupied
  · by_cases hj : j = te
    · subst hj
      have hjlen : j < m.slots.length := by
        by_contra hc
        rw [stateAt_oob (by omega)] at hocc
        cases hocc
      rw [stateAt_eraseIndex_self hjlen hocc, hocc]
      simp
    · rw [stateAt_of_fields (fieldsAt_eraseIndex_ne m te j hj)]
  · rw [eraseIndex_noop hocc]

theorem hOcc_erase (m : MapState K V) (te : Nat) :
    ∀ (j : Nat) (k : K), stateAt (eraseIndex m te) j = SlotState.Occupied →
      keyAt (eraseIndex m te) j = k →
      stateAt m j = SlotState.Occupied ∧ keyAt m j = k := by
  intro j k hs hk
  by_cases hocc : stateAt m te = SlotState.Occupied
  · by_cases hj : j = te
    · subst hj
      have hjlen : j < m.slots.length := by
        by_contra hc
        rw [stateAt_oob (by omega)] at hocc
        cases hocc
      rw [stateAt_eraseIndex_self hjlen hocc] at hs
      cases hs
    · have hf := fieldsAt_eraseIndex_ne m te j hj
      exact ⟨(stateAt_of_fields hf).symm.trans hs, (keyAt_of_fields hf).symm.trans hk⟩
  · rw [eraseIndex_noop hocc] at hs hk
    exact ⟨hs, hk⟩

end LRUModel

namespace LRUModel

variable {K V : Type} [DecidableEq K] [DecidableEq V] [Inhabited K]

/-- C5: quiet-update idempotence.  On a shard whose table has the proper
length, whose Occupied slots hold values, and whose dirty mask is clear,
a successful `put(k, v)` followed by `put(k, v)` leaves the shard in the
identical state: the second call finds the existing value equal to the new
one, and its splice-to-front is a no-op because the slot is already the
list head. -/
theorem claimC5_quiet_idempotent (Cap : Nat) (hK : K → Nat) (RC : Nat)
    (s s2 : Shard K V) (k : K) (v : V) (hCap : 0 < Cap)
    (hlen : s.col.slots.length = 2 * Cap)
    (hvo : ValuedOcc (2 * Cap) s.col)
    (hd0 : s.dirty = 0)
    (h : lv5Put Cap hK RC s k v = some s2) :
    lv5Put Cap hK RC s2 k v = some s2 := by
  have hTS : 0 < 2 * Cap := by omega
  have key : ∃ idx, s2.col.head = some idx ∧
      probeF s2.col k (2 * Cap) (2 * Cap) (hashIdx hK (2 * Cap) k) none
        = some (ProbeOut.hit idx) ∧
      valueAt s2.col idx = some v := by
    unfold lv5Put at h
    rcases hlk : lookupD hK (2 * Cap) s.col k with _ | res
    · rw [hlk] at h
      exact absurd h (by simp)
    rw [hlk] at h
    dsimp only at h
    have hcls := lookupD_cases hlk
    by_cases hq : res.ptr = some v
    · rw [if_pos hq] at h
      have hs2 := Option.some.inj h
      subst hs2
      have hph : probeF s.col k (2 * Cap) (2 * Cap) (hashIdx hK (2 * Cap) k) none
          = some (ProbeOut.hit res.idx) := by
        rcases hcls with ⟨_, hp0⟩ | ⟨hph, _⟩
        · rw [hq] at hp0
          exact absurd hp0 (by simp)
        · exact hph
      refine ⟨res.idx, head_mtf s.col res.idx, ?_, ?_⟩
      · rw [probe_congr (skAgree_mtf s.col res.idx) (2 * Cap)
          (hashIdx hK (2 * Cap) k) none]
        exact hph
      · rw [valueAt_of_fields (fieldsAt_mtf s.col res.idx res.idx)]
        rcases hcls with ⟨_, hp0⟩ | ⟨_, hpv⟩
        · rw [hq] at hp0
          exact absurd hp0 (by simp)
        · rw [← hpv]
          exact hq
    · rw [if_neg hq] at h
      rw [if_neg (not_not_intro hd0)] at h
      rcases hcm : commitPut Cap hK { s with epochs := bumpEpoch s.epochs } k v
        with _ | s3
      · rw [hcm] at h
        exact absurd h (by simp)
      rw [hcm] at h
      dsimp only at h
      have hcol2 : s2.col = s3.col := by
        have hs := (Option.some.inj h).symm
        rw [hs]
        split_ifs <;> rfl
      unfold commitPut at hcm
      rw [hlk] at hcm
      dsimp only at hcm
      split_ifs at hcm with hp hfull
      · -- update path
        have hph : probeF s.col k (2 * Cap) (2 * Cap) (hashIdx hK (2 * Cap) k) none
            = some (ProbeOut.hit res.idx) := by
          rcases hcls with ⟨_, hp0⟩ | ⟨hph, _⟩
          · exact absurd hp0 hp
          · exact hph
        obtain ⟨hidxlt, hidxocc, _⟩ := probe_hit_spec (2 * Cap)
          (hashIdx hK (2 * Cap) k) none (hashIdx_lt hK k hTS) hph
        have hidxL : res.idx < s.col.slots.length := by
          rw [hlen]
          exact hidxlt
        have hs3 := Option.some.inj hcm
        subst hs3
        refine ⟨res.idx, ?_, ?_, ?_⟩
        · rw [hcol2]
          exact head_mtf _ res.idx
        · rw [hcol2]
          rw [probe_congr (skAgree_mtf (updateSlot s.col res.idx v).1 res.idx)
            (2 * Cap) (hashIdx hK (2 * Cap) k) none]
          rw [probe_congr (skAgree_updateSlot s.col res.idx v hidxL hidxocc)
            (2 * Cap) (hashIdx hK (2 * Cap) k) none]
          exact hph
        · rw [hcol2]
          rw [valueAt_of_fields
            (fieldsAt_mtf (updateSlot s.col res.idx v).1 res.idx res.idx)]
          exact valueAt_updateSlot_self s.col res.idx v hidxL
      · -- evict path
        have hpm : probeF s.col k (2 * Cap) (2 * Cap) (hashIdx hK (2 * Cap) k) none
            = some (ProbeOut.miss res.idx) := by
          rcases hcls with ⟨hpm, _⟩ | ⟨hph, hpv⟩
          · exact hpm
          · obtain ⟨hlt, hocc, _⟩ := probe_hit_spec (2 * Cap)
              (hashIdx hK (2 * Cap) k) none (hashIdx_lt hK k hTS) hph
            rw [not_not] at hp
            exact absurd (hpv.symm.trans hp) (hvo res.idx hlt hocc)
        rcases hta : s.col.tail with _ | te
        · rw [hta] at hcm
          exact absurd hcm (by simp)
        rw [hta] at hcm
        dsimp only at hcm
        rcases has : assignF hK (2 * Cap) (eraseIndex s.col te) k with _ | t
        · rw [has] at hcm
          exact absurd hcm (by simp)
        rw [has] at hcm
        have hs3 := Option.some.inj hcm
        subst hs3
        obtain ⟨r, hr⟩ := probe_miss_mono (hEmp_erase s.col te)
          (fun j => hOcc_erase s.col te j k) (2 * Cap) (hashIdx hK (2 * Cap) k)
          none none res.idx hpm
        have hagree : assignGo (eraseIndex s.col te) (2 * Cap) (2 * Cap)
            (hashIdx hK (2 * Cap) k) none = some r :=
          probe_assign_agree (2 * Cap) (hashIdx hK (2 * Cap) k) none hr
        have htr : t = r := Option.some.inj (has.symm.trans hagree)
        subst htr
        obtain ⟨htlt, htnocc⟩ := assign_spec (2 * Cap) (hashIdx hK (2 * Cap) k)
          none (hashIdx_lt hK k hTS) (fun d hd => Option.noConfusion hd) has
        have htL : t < (eraseIndex s.col te).slots.length := by
          rw [length_eraseIndex, hlen]
          exact htlt
        refine ⟨t, ?_, ?_, ?_⟩
        · rw [hcol2]
          exact head_mtf _ t
        · rw [hcol2]
          rw [probe_congr (skAgree_mtf (emplaceAt (eraseIndex s.col te) t k v) t)
            (2 * Cap) (hashIdx hK (2 * Cap) k) none]
          refine probe_plant_hit ?_ (stateAt_emplaceAt_self _ t k v htL)
            (keyAt_emplaceAt_self _ t k v htL) htnocc (2 * Cap)
            (hashIdx hK (2 * Cap) k) hr
          intro j hj
          have hf := fieldsAt_emplaceAt_ne (eraseIndex s.col te) t j k v hj
          exact ⟨stateAt_of_fields hf, keyAt_of_fields hf⟩
        · rw [hcol2]
          rw [valueAt_of_fields
            (fieldsAt_mtf (emplaceAt (eraseIndex s.col te) t k v) t t)]
          exact valueAt_emplaceAt_self _ t k v htL
      · -- insert path
        have hpm : probeF s.col k (2 * Cap) (2 * Cap) (hashIdx hK (2 * Cap) k) none
            = some (ProbeOut.miss res.idx) := by
          rcases hcls with ⟨hpm, _⟩ | ⟨hph, hpv⟩
          · exact hpm
          · obtain ⟨hlt, hocc, _⟩ := probe_hit_spec (2 * Cap)
              (hashIdx hK (2 * Cap) k) none (hashIdx_lt hK k hTS) hph
            rw [not_not] at hp
            exact absurd (hpv.symm.trans hp) (hvo res.idx hlt hocc)
        obtain ⟨hidxlt, hidxnocc⟩ := probe_miss_spec (2 * Cap)
          (hashIdx hK (2 * Cap) k) none (hashIdx_lt hK k hTS)
          (fun d hd => Option.noConfusion hd) hpm
        have hidxL : res.idx < s.col.slots.length := by
          rw [hlen]
          exact hidxlt
        have hs3 := Option.some.inj hcm
        subst hs3
        refine ⟨res.idx, ?_, ?_, ?_⟩
        · rw [hcol2]
          exact head_mtf _ res.idx
        · rw [hcol2]
          rw [probe_congr (skAgree_mtf (emplaceAt s.col res.idx k v) res.idx)
            (2 * Cap) (hashIdx hK (2 * Cap) k) none]
          refine probe_plant_hit ?_ (stateAt_emplaceAt_self _ res.idx k v hidxL)
            (keyAt_emplaceAt_self _ res.idx k v hidxL) hidxnocc (2 * Cap)
            (hashIdx hK (2 * Cap) k) hpm
          intro j hj
          have hf := fieldsAt_emplaceAt_ne s.col res.idx j k v hj
          exact ⟨stateAt_of_fields hf, keyAt_of_fields hf⟩
        · rw [hcol2]
          rw [valueAt_of_fields
            (fieldsAt_mtf (emplaceAt s.col res.idx k v) res.idx res.idx)]
          exact valueAt_emplaceAt_self _ res.idx k v hidxL
  obtain ⟨idx, hhd, hpr, hval⟩ := key
  have hlk2 : lookupD hK (2 * Cap) s2.col k
      = some ⟨valueAt s2.col idx, idx, genAt s2.col idx⟩ := by
    unfold lookupD
    rw [hpr]
  unfold lv5Put
  rw [hlk2]
  dsimp only
  rw [hval]
  rw [if_pos rfl]
  rw [mtf_head_self hhd]

end LRUModel

namespace LRUModel

theorem claimC5_quiet_idempotent_witness :
    ((0 : Nat) < 2 ∧
      (initShard Nat Nat 2 1 1).col.slots.length = 2 * 2 ∧
      ValuedOcc (2 * 2) (initShard Nat Nat 2 1 1).col ∧
      (initShard Nat Nat 2 1 1).dirty = 0 ∧
      lv5Put 2 id 1 (initShard Nat Nat 2 1 1) 1 5 =
        some ((lv5Put 2 id 1 (initShard Nat Nat 2 1 1) 1 5).getD
          (initShard Nat Nat 2 1 1))) ∧
    lv5Put 2 id 1
      ((lv5Put 2 id 1 (initShard Nat Nat 2 1 1) 1 5).getD (initShard Nat Nat 2 1 1))
      1 5 =
      some ((lv5Put 2 id 1 (initShard Nat Nat 2 1 1) 1 5).getD
        (initShard Nat Nat 2 1 1)) :=
  ⟨⟨by decide, by decide, by decide, by decide, by decide⟩,
    claimC5_quiet_idempotent 2 id 1 (initShard Nat Nat 2 1 1)
      ((lv5Put 2 id 1 (initShard Nat Nat 2 1 1) 1 5).getD (initShard Nat Nat 2 1 1))
      1 5 (by decide) (by decide) (by decide) (by decide) (by decide)⟩

end LRUModel
